import Mathlib

/-!
# EasyJSONGo: a shallow embedding of `easy_json.go`

The Go package keeps a JSON document as nested `map[string]interface{}` and
`[]interface{}` values behind an `EasyJSON` handle, addresses nodes with path
strings such as `a.b[0].c`, and prints the document with its own serializer.
The embedding follows `easy_json.go`; `easy_json_go.go` is an earlier variant of
the same package with the same `parsePath` and the same loop in `Get`.

Conventions of the embedding:

* a Go `string` is a `List Char` (`Str`); the source scans strings bytewise for
  the ASCII delimiters `.`, `[` and `]`, which on well-formed UTF-8 text is the
  same scan over code points;
* a Go `interface{}` is a `Val`; the dynamic types the source asserts on have
  constructors of their own, every other Go value is kept with its type string;
* a call ends in a `Res`: a returned value, a returned error sentinel, or a
  run-time panic (`Fault`);
* a document is a tree: every map and slice sits at exactly one position, so the
  in-place writes of `Set` and `Append` become a rebuilt tree (`Set` and
  `Append` return the document after the call next to their result);
* a Go map is an association list, searched from the front, whose order stands
  for the (unspecified) iteration order of the map;
* Go `int` is 64 bits wide;
* `strconv.Atoi`, `strings.TrimSpace`, `strings.Split`, `strings.Contains` and
  the `%v` verb of `fmt` belong to the Go standard library and are modelled
  from their documentation; the text `fmt` prints for values other than
  booleans and integers is a parameter (`fmtExt`) of the serializer.
-/

namespace EasyJSONGo

/-- Go strings. -/
abbrev Str := List Char

/-- Run-time panics of the Go program. -/
inductive Fault where
  | indexOutOfRange
  | sliceBounds
  | typeAssertion
  | nilMapWrite
  | nilDereference
  | reflectPanic
  deriving DecidableEq, Repr

/-- The error sentinels declared in the source (`var ( Err... )`). -/
inductive Err where
  | ErrInvalidJSONString
  | ErrInvalidArguments
  | ErrIndexOutOfBounds
  | ErrFieldNotExists
  | ErrNotAnArray
  | ErrNotAnObject
  | ErrNotAStruct
  deriving DecidableEq, Repr

/-- Outcome of a call: normal return, returned error, or panic. -/
inductive Res (α : Type) where
  | ok (a : α)
  | err (e : Err)
  | panic (f : Fault)
  deriving DecidableEq, Repr

/-- Sequencing of outcomes: errors and panics propagate. -/
def Res.bind {α β : Type} : Res α → (α → Res β) → Res β
  | .ok a, f => f a
  | .err e, _ => .err e
  | .panic p, _ => .panic p

/-- Post-composition on a normal return. -/
def Res.map {α β : Type} (f : α → β) : Res α → Res β
  | .ok a => .ok (f a)
  | .err e => .err e
  | .panic p => .panic p

/-- The built-in integer types of the type switch in `GetInt64`. -/
inductive IntKind where
  | int | int8 | int16 | int32 | int64
  | uint | uint8 | uint16 | uint32 | uint64
  deriving DecidableEq, Repr

/-- The built-in floating-point types. -/
inductive FloatKind where
  | float32 | float64
  deriving DecidableEq, Repr

/-- Static description of one struct field, as `reflect` reports it:
`name` is `field.Name`, `tag` is `field.Tag.Get("json")` (empty when the field
has no such tag) and `exported` tells whether `Interface()` may read it. -/
structure FieldInfo where
  name : Str
  tag : Str
  exported : Bool
  deriving DecidableEq, Repr

/-- Go values held in an `interface{}`.

* `null` is the nil interface;
* `slice`/`nilSlice` are the values of type `[]interface{}`;
* `map`/`nilMap` are the values of type `map[string]interface{}`;
* `easyJSON`/`nilEasyJSON` are the values of type `*EasyJSON`, the former
  carrying the three fields of the struct pointed to (`none` is a nil map or
  nil slice);
* `ptr`/`nilPtr` are pointers of any other pointer type, `ty` being the type
  string of the pointer type;
* `struct` is a struct value of the named type `ty`;
* `seq` is a slice (`isArray = false`) or array of any type other than
  `[]interface{}`;
* `float` keeps the IEEE bit pattern;
* `other` is a value of any remaining type, with its type string, the string
  of its `reflect.Kind` (not ptr, struct, array or slice) and a number that
  tells the values of that type apart. -/
inductive Val where
  | null
  | bool (b : Bool)
  | int (k : IntKind) (n : Int)
  | float (k : FloatKind) (bits : Nat)
  | str (s : Str)
  | slice (xs : List Val)
  | nilSlice
  | map (kvs : List (Str × Val))
  | nilMap
  | easyJSON (jsonType : Int) (m : Option (List (Str × Val))) (a : Option (List Val))
  | nilEasyJSON
  | ptr (ty : Str) (target : Val)
  | nilPtr (ty : Str)
  | struct (ty : Str) (fields : List (FieldInfo × Val))
  | seq (ty : Str) (isArray : Bool) (xs : List Val)
  | other (ty : Str) (kind : Str) (id : Nat)

/-- The struct `EasyJSON` of the source: `jsonType`, `m` and `a`. -/
structure EasyJSON where
  jsonType : Int
  m : Option (List (Str × Val))
  a : Option (List Val)

def JSON_TYPE_INVALID : Int := 0
def JSON_TYPE_OBJECT : Int := 1
def JSON_TYPE_ARRAY : Int := 2

/-- A `map[string]interface{}` stored in an `interface{}`. -/
def mapVal : Option (List (Str × Val)) → Val
  | none => .nilMap
  | some kvs => .map kvs

/-- A `[]interface{}` stored in an `interface{}`. -/
def sliceVal : Option (List Val) → Val
  | none => .nilSlice
  | some xs => .slice xs

/-- Type assertion `v.([]interface{})`, giving the elements. -/
def asSlice : Val → Option (List Val)
  | .slice xs => some xs
  | .nilSlice => some []
  | _ => none

/-- Type assertion `v.(map[string]interface{})`, giving the entries. -/
def asMap : Val → Option (List (Str × Val))
  | .map kvs => some kvs
  | .nilMap => some []
  | _ => none

/-- Map read `val, ok := m[name]`. -/
def mapLoad (name : Str) : List (Str × Val) → Option Val
  | [] => none
  | (k, v) :: rest => if k = name then some v else mapLoad name rest

/-- Map write `m[name] = value` on a non-nil map. -/
def mapStore (name : Str) (value : Val) : List (Str × Val) → List (Str × Val)
  | [] => [(name, value)]
  | (k, v) :: rest =>
    if k = name then (name, value) :: rest else (k, v) :: mapStore name value rest

/-! ## Standard-library functions used by the source -/

/-- Decimal digit test. -/
def isDigit (c : Char) : Bool := decide (48 ≤ c.toNat) && decide (c.toNat ≤ 57)

/-- Value of a decimal digit. -/
def digitVal (c : Char) : Nat := c.toNat - 48

/-- Value of a digit string read in base ten. -/
def decVal (ds : Str) : Nat := ds.foldl (fun n c => n * 10 + digitVal c) 0

/-- Largest Go `int`. -/
def maxInt : Int := 9223372036854775807

/-- Result value of `strconv.Atoi`, whose error the source always discards
(`index, _ := strconv.Atoi(name)`): an optional sign and a non-empty run of
decimal digits give the number, clamped to the range of `int`; any other text
gives `0`. -/
def Atoi (s : Str) : Int :=
  let neg : Bool := match s with
    | c :: _ => decide (c = '-')
    | [] => false
  let body : Str := match s with
    | c :: r => if c = '-' ∨ c = '+' then r else s
    | [] => s
  if body.isEmpty || !body.all isDigit then 0
  else if neg then
    (if (decVal body : Int) > maxInt + 1 then -(maxInt + 1) else -(decVal body : Int))
  else
    (if (decVal body : Int) > maxInt then maxInt else (decVal body : Int))

/-- White space in the sense of `unicode.IsSpace`. -/
def isSpace (c : Char) : Bool :=
  let n := c.toNat
  decide (9 ≤ n ∧ n ≤ 13) || n == 32 || n == 133 || n == 160 || n == 5760 ||
  decide (8192 ≤ n ∧ n ≤ 8202) || n == 8232 || n == 8233 || n == 8239 || n == 8287 ||
  n == 12288

/-- The function `strings.TrimSpace`. -/
def TrimSpace (s : Str) : Str :=
  ((s.dropWhile isSpace).reverse.dropWhile isSpace).reverse

/-- The function `strings.Split(s, ".")`. -/
def Split : Str → List Str
  | [] => [[]]
  | c :: cs =>
    if c = '.' then [] :: Split cs
    else match Split cs with
      | [] => [[c]]
      | s :: ss => (c :: s) :: ss

/-! ## The path parser -/

/-- Prepend a name to the names produced by the rest of the scan. -/
def consName (name : Str) (r : Res (List Str)) : Res (List Str) :=
  r.map (fun names => name :: names)

/-- The inner `for` loop of `parsePath` on one snippet. With `i`, `j` the loop
variables of the source, `acc` is `snippet[i:j]` and the list argument is
`snippet[j:]`; the result is the list of names appended from here on.

The source indexes bytes. After a closing bracket it takes the next byte as the
new `beginChar` and steps over it: a character of one byte (code below 128) is
stepped over whole, of a longer character only the first byte is, and its other
bytes, none of them a bracket, are scanned as part of the next name. -/
def scanSnippet (beginChar : Char) (acc : Str) : Str → Res (List Str)
  | [] => .panic .indexOutOfRange
  | [ch] =>
    if beginChar = '[' then
      if ch = ']' then .ok [acc ++ [ch]] else .panic .indexOutOfRange
    else .ok [acc ++ [ch]]
  | ch :: b :: rest =>
    if beginChar = '[' then
      if ch = ']' then
        consName (acc ++ [ch])
          (if b.toNat < 128 then scanSnippet b [b] rest else scanSnippet b [] (b :: rest))
      else scanSnippet beginChar (acc ++ [ch]) (b :: rest)
    else
      if ch = '[' then consName acc (scanSnippet ch [ch] (b :: rest))
      else scanSnippet beginChar (acc ++ [ch]) (b :: rest)

/-- The outer loop of `parsePath` over the snippets. -/
def parseSnippets : List Str → Res (List Str)
  | [] => .ok []
  | snippet :: more =>
    match snippet with
    | [] => .panic .indexOutOfRange
    | beginChar :: _ =>
      (scanSnippet beginChar [] snippet).bind fun names =>
        (parseSnippets more).map fun rest => names ++ rest

/-- The function `parsePath`. -/
def parsePath (path : Str) : Res (List Str) :=
  parseSnippets (Split (TrimSpace path))

/-! ## Reading -/

/-- The value the traversal starts from: `easyJSON.m` for an object handle,
`easyJSON.a` otherwise. -/
def rootVal (easyJSON : EasyJSON) : Val :=
  if easyJSON.jsonType = JSON_TYPE_OBJECT then mapVal easyJSON.m else sliceVal easyJSON.a

/-- The text between the brackets, `name[1 : size - 1]`. -/
def stripBrackets (name : Str) : Str := (name.drop 1).take (name.length - 2)

/-- The loop of `Get` over the names. -/
def getLoop : Val → List Str → Res Val
  | value, [] => .ok value
  | value, name :: rest =>
    match name with
    | [] => .panic .indexOutOfRange
    | ch :: _ =>
      if ch = '[' then
        if name.length < 2 then .panic .sliceBounds
        else
          let index := Atoi (stripBrackets name)
          match asSlice value with
          | none => .panic .typeAssertion
          | some a =>
            if index ≥ (a.length : Int) then .err .ErrIndexOutOfBounds
            else if index < 0 then .panic .indexOutOfRange
            else
              match a[index.toNat]? with
              | none => .panic .indexOutOfRange
              | some elem => getLoop elem rest
      else
        match asMap value with
        | none => .panic .typeAssertion
        | some m =>
          match mapLoad name m with
          | none => .err .ErrFieldNotExists
          | some val => getLoop val rest

/-- The method `Get`. -/
def Get (easyJSON : EasyJSON) (path : Str) : Res Val :=
  (parsePath path).bind fun nameList => getLoop (rootVal easyJSON) nameList

/-- The method `Opt`: the value of `Get`, or the default when `Get` returns
an error. -/
def Opt (easyJSON : EasyJSON) (path : Str) (defaultValue : Val) : Res Val :=
  match Get easyJSON path with
  | .ok value => .ok value
  | .err _ => .ok defaultValue
  | .panic p => .panic p

/-- The method `Exists`. -/
def Exists (easyJSON : EasyJSON) (path : Str) : Res Bool :=
  match Get easyJSON path with
  | .ok _ => .ok true
  | .err _ => .ok false
  | .panic p => .panic p

/-! ## The value normalizer -/

/-- The function `strings.Contains(s, sub)`. -/
def containsSub (sub : Str) : Str → Bool
  | [] => sub.isEmpty
  | c :: cs => sub.isPrefixOf (c :: cs) || containsSub sub cs

/-- The test `strings.Contains(t.String(), "EasyJSON")` on a type string. -/
def mentionsEasyJSON (ty : Str) : Bool := containsSub "EasyJSON".toList ty

mutual
/-- The function `valueEncoder`. A value whose type string mentions `EasyJSON`
is asserted to be a `*EasyJSON`; a pointer is dereferenced once
(`v.Elem().Interface()`, which panics on a nil pointer, and
`reflect.TypeOf(val).Kind()`, which panics on a nil pointee); structs go to
`structEncoder`, arrays and slices to `arrayEncoder`; any other value is
returned as it is. -/
def valueEncoder : Val → Res Val
  | .null => .ok .null
  | .easyJSON jsonType m a =>
    if jsonType = JSON_TYPE_OBJECT then .ok (mapVal m) else .ok (sliceVal a)
  | .nilEasyJSON => .panic .nilDereference
  | .ptr ty target =>
    if mentionsEasyJSON ty then .panic .typeAssertion
    else
      match target with
      | .null => .panic .nilDereference
      | .struct _ fields => (structEncoder fields []).map Val.map
      | .seq _ _ xs => (arrayEncoder xs).map Val.slice
      | .slice xs => (arrayEncoder xs).map Val.slice
      | .nilSlice => .ok (.slice [])
      | pointee => .ok pointee
  | .nilPtr ty =>
    if mentionsEasyJSON ty then .panic .typeAssertion else .panic .reflectPanic
  | .struct ty fields =>
    if mentionsEasyJSON ty then .panic .typeAssertion
    else (structEncoder fields []).map Val.map
  | .seq ty _ xs =>
    if mentionsEasyJSON ty then .panic .typeAssertion
    else (arrayEncoder xs).map Val.slice
  | .slice xs => (arrayEncoder xs).map Val.slice
  | .nilSlice => .ok (.slice [])
  | .other ty kind id =>
    if mentionsEasyJSON ty then .panic .typeAssertion else .ok (.other ty kind id)
  | .bool b => .ok (.bool b)
  | .int k n => .ok (.int k n)
  | .float k bits => .ok (.float k bits)
  | .str s => .ok (.str s)
  | .map kvs => .ok (.map kvs)
  | .nilMap => .ok .nilMap
/-- The loop of `arrayEncoder` over the elements, giving the elements of the
fresh slice `a`. -/
def arrayEncoder : List Val → Res (List Val)
  | [] => .ok []
  | x :: rest =>
    (valueEncoder x).bind fun elem =>
      (arrayEncoder rest).map fun more => elem :: more
/-- The loop of `structEncoder` over the fields, `m` being the map built so
far. Reading an unexported field through `Interface()` panics. -/
def structEncoder : List (FieldInfo × Val) → List (Str × Val) → Res (List (Str × Val))
  | [], m => .ok m
  | (field, fv) :: rest, m =>
    if field.exported = false then .panic .reflectPanic
    else
      (valueEncoder fv).bind fun fieldValue =>
        if field.tag.length > 0 then structEncoder rest (mapStore field.tag fieldValue m)
        else structEncoder rest (mapStore field.name fieldValue m)
end

/-! ## Builders -/

/-- The loop of `Object` over the arguments: `index` is the position of the
next argument, `name` the last name seen, `m` the map built so far. -/
def objectLoop : List Val → Nat → Str → List (Str × Val) → Res (List (Str × Val))
  | [], _, _, m => .ok m
  | value :: rest, index, name, m =>
    if index % 2 = 0 then
      match value with
      | .str s => objectLoop rest (index + 1) s m
      | _ => .panic .typeAssertion
    else
      (valueEncoder value).bind fun v => objectLoop rest (index + 1) name (mapStore name v m)

/-- The function `Object`; `none` is the nil pointer returned for an odd number
of arguments. -/
def Object (args : List Val) : Res (Option EasyJSON) :=
  if args.length % 2 ≠ 0 then .ok none
  else (objectLoop args 0 [] []).map fun m => some ⟨JSON_TYPE_OBJECT, some m, none⟩

/-- The loop of `Array` over the arguments, `a` being the slice built so far
(`none` is the nil slice `var a []interface{}`). -/
def arrayLoop : List Val → Option (List Val) → Res (Option (List Val))
  | [], a => .ok a
  | arg :: rest, a =>
    (valueEncoder arg).bind fun v => arrayLoop rest (some (a.getD [] ++ [v]))

/-- The function `Array`. -/
def Array (args : List Val) : Res EasyJSON :=
  (arrayLoop args none).map fun a => ⟨JSON_TYPE_ARRAY, none, a⟩

/-! ## Writing -/

/-- The loop of `Set` from the cursor `iter`; the result is the subtree at the
cursor after the write at the end of the path. -/
def setLoop (value : Val) : Val → List Str → Res Val
  | iter, [] => .ok iter
  | iter, name :: rest =>
    match name with
    | [] => .panic .indexOutOfRange
    | ch :: _ =>
      if ch = '[' then
        if name.length < 2 then .panic .sliceBounds
        else
          let index := Atoi (stripBrackets name)
          match asSlice iter with
          | none => .panic .typeAssertion
          | some a =>
            if index ≥ (a.length : Int) then .err .ErrIndexOutOfBounds
            else if index < 0 then .panic .indexOutOfRange
            else if rest.isEmpty then .ok (.slice (a.set index.toNat value))
            else
              match a[index.toNat]? with
              | none => .panic .indexOutOfRange
              | some elem =>
                (setLoop value elem rest).map fun elem' => .slice (a.set index.toNat elem')
      else
        match asMap iter with
        | none => .panic .typeAssertion
        | some m =>
          if rest.isEmpty then
            match iter with
            | .nilMap => .panic .nilMapWrite
            | _ => .ok (.map (mapStore name value m))
          else
            match mapLoad name m with
            | none => .err .ErrFieldNotExists
            | some val =>
              (setLoop value val rest).map fun val' => .map (mapStore name val' m)

/-- Store the rebuilt root back into the handle. -/
def withRoot (easyJSON : EasyJSON) (root : Val) : EasyJSON :=
  if easyJSON.jsonType = JSON_TYPE_OBJECT then
    match root with
    | .map kvs => { easyJSON with m := some kvs }
    | _ => easyJSON
  else
    match root with
    | .slice xs => { easyJSON with a := some xs }
    | _ => easyJSON

/-- The method `Set`: the document after the call and what the call returned.
The document is written only by the assignment at the end of the path.

Here a document is a tree of values and the write rebuilds the tree along the
path: this is what the in-place write of the source does to a document in
which no map or slice is stored at two positions. A map or slice stored at two
positions is one object in Go; `SetH` below keeps maps and slices by
reference. -/
def Set (easyJSON : EasyJSON) (path : Str) (value : Val) : EasyJSON × Res Unit :=
  match valueEncoder value with
  | .err e => (easyJSON, .err e)
  | .panic p => (easyJSON, .panic p)
  | .ok value =>
    match parsePath path with
    | .err e => (easyJSON, .err e)
    | .panic p => (easyJSON, .panic p)
    | .ok nameList =>
      match setLoop value (rootVal easyJSON) nameList with
      | .err e => (easyJSON, .err e)
      | .panic p => (easyJSON, .panic p)
      | .ok root => (withRoot easyJSON root, .ok ())

/-- The loop of `Append` from the cursor `iter`. -/
def appendLoop (value : Val) : Val → List Str → Res Val
  | iter, [] => .ok iter
  | iter, name :: rest =>
    match name with
    | [] => .panic .indexOutOfRange
    | ch :: _ =>
      if ch = '[' then
        if name.length < 2 then .panic .sliceBounds
        else
          let index := Atoi (stripBrackets name)
          match asSlice iter with
          | none => .panic .typeAssertion
          | some a =>
            if index ≥ (a.length : Int) then .err .ErrIndexOutOfBounds
            else if index < 0 then .panic .indexOutOfRange
            else
              match a[index.toNat]? with
              | none => .panic .indexOutOfRange
              | some elem =>
                if rest.isEmpty then
                  match asSlice elem with
                  | none => .panic .typeAssertion
                  | some xs => .ok (.slice (a.set index.toNat (.slice (xs ++ [value]))))
                else
                  (appendLoop value elem rest).map fun elem' =>
                    .slice (a.set index.toNat elem')
      else
        match asMap iter with
        | none => .panic .typeAssertion
        | some m =>
          if rest.isEmpty then
            match mapLoad name m with
            | none => .panic .typeAssertion
            | some old =>
              match asSlice old with
              | none => .panic .typeAssertion
              | some xs => .ok (.map (mapStore name (.slice (xs ++ [value])) m))
          else
            match mapLoad name m with
            | none => .err .ErrFieldNotExists
            | some val =>
              (appendLoop value val rest).map fun val' => .map (mapStore name val' m)

/-- The method `Append`: the document after the call and what the call
returned. -/
def Append (easyJSON : EasyJSON) (path : Str) (value : Val) : EasyJSON × Res Unit :=
  match valueEncoder value with
  | .err e => (easyJSON, .err e)
  | .panic p => (easyJSON, .panic p)
  | .ok value =>
    if path = [] then
      if easyJSON.jsonType ≠ JSON_TYPE_ARRAY then (easyJSON, .err .ErrNotAnArray)
      else ({ easyJSON with a := some (easyJSON.a.getD [] ++ [value]) }, .ok ())
    else
      match parsePath path with
      | .err e => (easyJSON, .err e)
      | .panic p => (easyJSON, .panic p)
      | .ok nameList =>
        match appendLoop value (rootVal easyJSON) nameList with
        | .err e => (easyJSON, .err e)
        | .panic p => (easyJSON, .panic p)
        | .ok root => (withRoot easyJSON root, .ok ())

/-! ## The serializer -/

/-- The double quote character. -/
def dq : Char := Char.ofNat 34

/-- Decimal text of an integer, as `%v` prints it. -/
def intText (n : Int) : Str :=
  if n < 0 then '-' :: Nat.toDigits 10 n.natAbs else Nat.toDigits 10 n.toNat

/-- The call `fmt.Sprintf("%v", v)`: booleans and integers print as usual;
`fmtExt` is the text `fmt` produces for a value of any other type. -/
def Sprintf (fmtExt : Val → Str) : Val → Str
  | .bool b => if b then "true".toList else "false".toList
  | .int _ n => intText n
  | v => fmtExt v

mutual
/-- The text appended for one element or one entry value in `toJSONString`:
`null` for the nil interface, otherwise by `reflect` kind: a `string` is
quoted without escaping, a map or slice is serialized recursively (after the
type assertion at the head of `toJSONString`), anything else goes through
`%v`. -/
def itemJSON (fmtExt : Val → Str) : Val → Res Str
  | .null => .ok "null".toList
  | .str s => .ok (dq :: s ++ [dq])
  | .map kvs => (pairsJSON fmtExt kvs true).map fun body => '{' :: body ++ ['}']
  | .nilMap => .ok ['{', '}']
  | .slice xs => (itemsJSON fmtExt xs true).map fun body => '[' :: body ++ [']']
  | .nilSlice => .ok ['[', ']']
  | .seq ty isArray xs =>
    if isArray then .ok (Sprintf fmtExt (.seq ty isArray xs)) else .panic .typeAssertion
  | .other ty kind id =>
    if kind = "string".toList ∨ kind = "map".toList ∨ kind = "slice".toList then
      .panic .typeAssertion
    else .ok (Sprintf fmtExt (.other ty kind id))
  | .bool b => .ok (Sprintf fmtExt (.bool b))
  | .int k n => .ok (Sprintf fmtExt (.int k n))
  | .float k bits => .ok (Sprintf fmtExt (.float k bits))
  | .easyJSON jsonType m a => .ok (Sprintf fmtExt (.easyJSON jsonType m a))
  | .nilEasyJSON => .ok (Sprintf fmtExt .nilEasyJSON)
  | .ptr ty target => .ok (Sprintf fmtExt (.ptr ty target))
  | .nilPtr ty => .ok (Sprintf fmtExt (.nilPtr ty))
  | .struct ty fields => .ok (Sprintf fmtExt (.struct ty fields))
/-- The array loop of `toJSONString`. -/
def itemsJSON (fmtExt : Val → Str) : List Val → Bool → Res Str
  | [], _ => .ok []
  | v :: rest, first =>
    (itemJSON fmtExt v).bind fun s =>
      (itemsJSON fmtExt rest false).map fun t =>
        (if first then [] else [',']) ++ s ++ t
/-- The object loop of `toJSONString`. -/
def pairsJSON (fmtExt : Val → Str) : List (Str × Val) → Bool → Res Str
  | [], _ => .ok []
  | (k, v) :: rest, first =>
    (itemJSON fmtExt v).bind fun s =>
      (pairsJSON fmtExt rest false).map fun t =>
        (if first then [] else [',']) ++ (dq :: k ++ [dq, ':']) ++ s ++ t
end

/-- The function `toJSONString`. -/
def toJSONString (fmtExt : Val → Str) (json : Val) (jsonType : Int) : Res Str :=
  if jsonType = JSON_TYPE_OBJECT then
    match asMap json with
    | none => .panic .typeAssertion
    | some kvs => (pairsJSON fmtExt kvs true).map fun body => '{' :: body ++ ['}']
  else
    match asSlice json with
    | none => .panic .typeAssertion
    | some xs => (itemsJSON fmtExt xs true).map fun body => '[' :: body ++ [']']

/-- The method `String`. -/
def String (fmtExt : Val → Str) (easyJSON : EasyJSON) : Res Str :=
  if easyJSON.jsonType = JSON_TYPE_OBJECT then
    toJSONString fmtExt (mapVal easyJSON.m) JSON_TYPE_OBJECT
  else
    toJSONString fmtExt (sliceVal easyJSON.a) JSON_TYPE_ARRAY

/-! ## Paths as the specification describes them -/

/-- A path token: `Field name` addresses an object key, `Index digits` an array
position written with the decimal digits `digits`. -/
inductive Token where
  | Field (name : Str)
  | Index (digits : Str)
  deriving DecidableEq, Repr

/-- The text of a token inside a path. -/
def Token.text : Token → Str
  | .Field name => name
  | .Index digits => '[' :: digits ++ [']']

/-- A segment of a path: an optional field name (`name = []` when absent)
followed by bracketed index suffixes. -/
structure Segment where
  name : Str
  idxs : List Str
  deriving DecidableEq, Repr

/-- Text of a chain of index suffixes. -/
def renderIdxs : List Str → Str
  | [] => []
  | ds :: rest => '[' :: ds ++ ']' :: renderIdxs rest

/-- Text of a segment. -/
def Segment.render (seg : Segment) : Str := seg.name ++ renderIdxs seg.idxs

/-- Tokens of a segment, in order. -/
def Segment.tokens (seg : Segment) : List Token :=
  (if seg.name = [] then [] else [Token.Field seg.name]) ++ seg.idxs.map Token.Index

/-- Text of a path: its segments joined by dots. -/
def renderPath : List Segment → Str
  | [] => []
  | [seg] => seg.render
  | seg :: rest => seg.render ++ '.' :: renderPath rest

/-- Tokens of a path, in order. -/
def pathTokens : List Segment → List Token
  | [] => []
  | seg :: rest => seg.tokens ++ pathTokens rest

/-- A field name holds no dot and no opening bracket. -/
def nameOK (name : Str) : Bool := name.all fun c => c ≠ '.' && c ≠ '['

/-- An index suffix holds a non-empty run of decimal digits. -/
def idxOK (ds : Str) : Bool := !ds.isEmpty && ds.all isDigit

/-- The array position a digit string stands for, as a Go `int`: its decimal
value, or the largest `int` when that value is beyond the range of `int`. -/
def idxPos (ds : Str) : Nat := min (decVal ds) maxInt.toNat

/-- A well-formed segment: a field name, index suffixes, or both. -/
def Segment.wf (seg : Segment) : Bool :=
  nameOK seg.name && seg.idxs.all idxOK && (!seg.name.isEmpty || !seg.idxs.isEmpty)

/-- The text neither starts nor ends with white space. -/
def noOuterSpace (s : Str) : Bool :=
  s.head?.all (fun c => !isSpace c) && s.getLast?.all (fun c => !isSpace c)

/-- A well-formed path: at least one segment, every segment well formed, no
white space around the whole text. -/
def pathWF (segs : List Segment) : Bool :=
  !segs.isEmpty && segs.all Segment.wf && noOuterSpace (renderPath segs)

/-- A well-formed token, for token lists not tied to a path text. -/
def Token.wf : Token → Bool
  | .Field name => !name.isEmpty && nameOK name
  | .Index digits => idxOK digits

/-- The value reached from `v` by following the tokens in order: an `Index`
token needs an array that has the position `idxPos digits`, a `Field` token an
object with that key. -/
def follow : Val → List Token → Option Val
  | v, [] => some v
  | v, .Index digits :: rest =>
    match asSlice v with
    | none => none
    | some a =>
      match a[idxPos digits]? with
      | none => none
      | some elem => follow elem rest
  | v, .Field name :: rest =>
    match asMap v with
    | none => none
    | some m =>
      match mapLoad name m with
      | none => none
      | some val => follow val rest

/-- The tree `v` with the subtree at the end of the tokens replaced by `w`;
`v` itself where the tokens do not resolve. -/
def graft : Val → List Token → Val → Val
  | _, [], w => w
  | v, .Index digits :: rest, w =>
    match asSlice v with
    | none => v
    | some a =>
      match a[idxPos digits]? with
      | none => v
      | some elem => .slice (a.set (idxPos digits) (graft elem rest w))
  | v, .Field name :: rest, w =>
    match asMap v with
    | none => v
    | some m =>
      match mapLoad name m with
      | none => v
      | some val => .map (mapStore name (graft val rest w) m)

/-- The rebuilt root has the dynamic type of the old one. -/
def keepsRoot (v r : Val) : Prop :=
  (∃ kvs, r = .map kvs ∧ (asMap v).isSome = true) ∨ (∃ xs, r = .slice xs ∧ (asSlice v).isSome = true)

/-- A plain field name used as a whole path: not empty, no dot, no opening
bracket, no white space at either end. -/
def plainName (k : Str) : Bool := !k.isEmpty && nameOK k && noOuterSpace k

/-- A non-nil `*EasyJSON` handed on as an argument. -/
def handle (easyJSON : EasyJSON) : Val :=
  .easyJSON easyJSON.jsonType easyJSON.m easyJSON.a

/-- The method `String` on the pointer returned by a builder; `<nil>` stands
for the nil pointer, on which the method is not defined. -/
def stringOf (fmtExt : Val → Str) : Res (Option EasyJSON) → Res Str
  | .ok (some easyJSON) => String fmtExt easyJSON
  | .ok none => .panic .nilDereference
  | .err e => .err e
  | .panic p => .panic p

/-! ## Typed accessors -/

/-- A Go `float64`, kept as its IEEE bit pattern; `0` is the number zero. -/
abbrev Float64 := Nat

/-- The conversion `int64(n)` of an integer of any built-in integer type: the
value itself when it lies in the range of `int64`, wrapped around otherwise
(which happens for `uint` and `uint64` values from `2^63` on). -/
def toInt64 (n : Int) : Int := (n + 9223372036854775808) % 18446744073709551616 - 9223372036854775808

/-- The method `GetInt64`. `floatToInt64` is the conversion `int64(x)` of a
floating-point number of the given type and bit pattern. A value outside the
type switch falls through to `return 0, nil`. -/
def GetInt64 (floatToInt64 : FloatKind → Nat → Int) (easyJSON : EasyJSON) (path : Str) :
    Res Int :=
  match Get easyJSON path with
  | .err e => .err e
  | .panic p => .panic p
  | .ok value =>
    match value with
    | .int _ n => .ok (toInt64 n)
    | .float k bits => .ok (floatToInt64 k bits)
    | _ => .ok 0

/-- The method `OptInt64`. -/
def OptInt64 (floatToInt64 : FloatKind → Nat → Int) (easyJSON : EasyJSON) (path : Str)
    (defaultValue : Int) : Res Int :=
  match GetInt64 floatToInt64 easyJSON path with
  | .ok value => .ok value
  | .err _ => .ok defaultValue
  | .panic p => .panic p

/-- The method `GetFloat64`. `widen` is the conversion `float64(x)` of a
`float32` bit pattern. The type switch has the two floating-point cases only;
any other value falls through to `return 0, nil`. -/
def GetFloat64 (widen : Nat → Float64) (easyJSON : EasyJSON) (path : Str) : Res Float64 :=
  match Get easyJSON path with
  | .err e => .err e
  | .panic p => .panic p
  | .ok value =>
    match value with
    | .float .float64 bits => .ok bits
    | .float .float32 bits => .ok (widen bits)
    | _ => .ok 0

/-- The method `OptFloat64`. -/
def OptFloat64 (widen : Nat → Float64) (easyJSON : EasyJSON) (path : Str)
    (defaultValue : Float64) : Res Float64 :=
  match GetFloat64 widen easyJSON path with
  | .ok value => .ok value
  | .err _ => .ok defaultValue
  | .panic p => .panic p

/-- The method `GetBoolean`: `value.(bool)` without the comma-ok form. -/
def GetBoolean (easyJSON : EasyJSON) (path : Str) : Res Bool :=
  match Get easyJSON path with
  | .err e => .err e
  | .panic p => .panic p
  | .ok value =>
    match value with
    | .bool b => .ok b
    | _ => .panic .typeAssertion

/-- The method `OptBoolean`. -/
def OptBoolean (easyJSON : EasyJSON) (path : Str) (defaultValue : Bool) : Res Bool :=
  match GetBoolean easyJSON path with
  | .ok value => .ok value
  | .err _ => .ok defaultValue
  | .panic p => .panic p

/-- The method `GetString`: `value.(string)` without the comma-ok form. -/
def GetString (easyJSON : EasyJSON) (path : Str) : Res Str :=
  match Get easyJSON path with
  | .err e => .err e
  | .panic p => .panic p
  | .ok value =>
    match value with
    | .str s => .ok s
    | _ => .panic .typeAssertion

/-- The method `OptString`. -/
def OptString (easyJSON : EasyJSON) (path : Str) (defaultValue : Str) : Res Str :=
  match GetString easyJSON path with
  | .ok value => .ok value
  | .err _ => .ok defaultValue
  | .panic p => .panic p

/-- The method `GetObject`: a fresh handle around
`value.(map[string]interface{})`. -/
def GetObject (easyJSON : EasyJSON) (path : Str) : Res EasyJSON :=
  match Get easyJSON path with
  | .err e => .err e
  | .panic p => .panic p
  | .ok value =>
    match value with
    | .map kvs => .ok ⟨JSON_TYPE_OBJECT, some kvs, none⟩
    | .nilMap => .ok ⟨JSON_TYPE_OBJECT, none, none⟩
    | _ => .panic .typeAssertion

/-- The method `OptObject`; the default is a pointer and may be nil (`none`). -/
def OptObject (easyJSON : EasyJSON) (path : Str) (defaultValue : Option EasyJSON) :
    Res (Option EasyJSON) :=
  match GetObject easyJSON path with
  | .ok value => .ok (some value)
  | .err _ => .ok defaultValue
  | .panic p => .panic p

/-- The method `GetArray`: a fresh handle around `value.([]interface{})`. -/
def GetArray (easyJSON : EasyJSON) (path : Str) : Res EasyJSON :=
  match Get easyJSON path with
  | .err e => .err e
  | .panic p => .panic p
  | .ok value =>
    match value with
    | .slice xs => .ok ⟨JSON_TYPE_ARRAY, none, some xs⟩
    | .nilSlice => .ok ⟨JSON_TYPE_ARRAY, none, none⟩
    | _ => .panic .typeAssertion

/-- The method `OptArray`. -/
def OptArray (easyJSON : EasyJSON) (path : Str) (defaultValue : Option EasyJSON) :
    Res (Option EasyJSON) :=
  match GetArray easyJSON path with
  | .ok value => .ok (some value)
  | .err _ => .ok defaultValue
  | .panic p => .panic p

/-! ## Parsing text -/

/-- Outcome of `Parse`: a document, one of the error sentinels, the error of
the decoder handed on as it is, or a panic. -/
inductive ParseRes where
  | ok (doc : EasyJSON)
  | err (e : Err)
  | decodeErr (msg : Str)
  | panic (f : Fault)

/-- The first loop of `Parse`: the type announced by the first `{` or `[`
found anywhere in the text. -/
def scanJSONType : Str → Int
  | [] => JSON_TYPE_INVALID
  | ch :: rest =>
    if ch = '{' then JSON_TYPE_OBJECT
    else if ch = '[' then JSON_TYPE_ARRAY
    else scanJSONType rest

/-- The function `Parse`. `decode` stands for `json.Unmarshal` into an
`interface{}`: it gives the decoded value or the message of its error. The
decoded value is asserted to have the type announced by `scanJSONType`. -/
def Parse (decode : Str → Except Str Val) (jsonString : Str) : ParseRes :=
  if scanJSONType jsonString = JSON_TYPE_INVALID then .err .ErrInvalidJSONString
  else
    match decode jsonString with
    | .error msg => .decodeErr msg
    | .ok data =>
      if scanJSONType jsonString = JSON_TYPE_OBJECT then
        match data with
        | .map kvs => .ok ⟨scanJSONType jsonString, some kvs, none⟩
        | .nilMap => .ok ⟨scanJSONType jsonString, none, none⟩
        | _ => .panic .typeAssertion
      else
        match data with
        | .slice xs => .ok ⟨scanJSONType jsonString, none, some xs⟩
        | .nilSlice => .ok ⟨scanJSONType jsonString, none, none⟩
        | _ => .panic .typeAssertion

/-! ## Further notions of the specification -/

/-- The key `structEncoder` stores a field under: the whole text of its json
tag when that text is not empty, its name otherwise. -/
def fieldKey (field : FieldInfo) : Str :=
  if field.tag.length > 0 then field.tag else field.name

/-- Name of a built-in integer type. -/
def IntKind.name : IntKind → Str
  | .int => "int".toList
  | .int8 => "int8".toList
  | .int16 => "int16".toList
  | .int32 => "int32".toList
  | .int64 => "int64".toList
  | .uint => "uint".toList
  | .uint8 => "uint8".toList
  | .uint16 => "uint16".toList
  | .uint32 => "uint32".toList
  | .uint64 => "uint64".toList

/-- The type string `reflect.TypeOf(v).String()` of a value (the nil interface
has no type; the empty text stands for that). -/
def typeString : Val → Str
  | .null => []
  | .bool _ => "bool".toList
  | .int k _ => k.name
  | .float .float32 _ => "float32".toList
  | .float .float64 _ => "float64".toList
  | .str _ => "string".toList
  | .slice _ => "[]interface \x7b\x7d".toList
  | .nilSlice => "[]interface \x7b\x7d".toList
  | .map _ => "map[string]interface \x7b\x7d".toList
  | .nilMap => "map[string]interface \x7b\x7d".toList
  | .easyJSON _ _ _ => "*EasyJSON.EasyJSON".toList
  | .nilEasyJSON => "*EasyJSON.EasyJSON".toList
  | .ptr ty _ => ty
  | .nilPtr ty => ty
  | .struct ty _ => ty
  | .seq ty _ _ => ty
  | .other ty _ _ => ty

/-- The pointee is a record, a collection, a map or a scalar: not the nil
interface, not a pointer, not a document handle. -/
def plainPointee : Val → Bool
  | .null => false
  | .easyJSON _ _ _ => false
  | .nilEasyJSON => false
  | .ptr _ _ => false
  | .nilPtr _ => false
  | _ => true

/-- The text is what `strconv.Atoi` reads as a number: an optional sign and
a non-empty run of decimal digits. -/
def isNumeral (t : Str) : Bool :=
  match t with
  | [] => false
  | c :: r => if c = '-' ∨ c = '+' then !r.isEmpty && r.all isDigit else (c :: r).all isDigit

/-- The text between brackets with every text that is not a numeral replaced
by `0`. -/
def zeroText (t : Str) : Str := if isNumeral t then t else ['0']

/-- The segment with `zeroText` applied to each index suffix. -/
def Segment.zeroed (seg : Segment) : Segment := ⟨seg.name, seg.idxs.map zeroText⟩

/-- A text that can stand between brackets without changing how the path is
cut up: no dot and no closing bracket. -/
def bracketOK (t : Str) : Bool := t.all fun c => c ≠ '.' && c ≠ ']'

/-- A segment whose index suffixes hold any bracket text. -/
def Segment.wfLoose (seg : Segment) : Bool :=
  nameOK seg.name && seg.idxs.all bracketOK && (!seg.name.isEmpty || !seg.idxs.isEmpty)

/-- A path whose index suffixes hold any bracket text. -/
def pathWFLoose (segs : List Segment) : Bool :=
  !segs.isEmpty && segs.all Segment.wfLoose && noOuterSpace (renderPath segs)

/-- The path, after `TrimSpace`, has an empty piece between dots: it is empty,
starts or ends with a dot, or has two dots in a row. -/
def hasEmptySegment (path : Str) : Bool := (Split (TrimSpace path)).any List.isEmpty

/-! ## Example documents -/

/-- The document `{"a":[1,2]}`. -/
def docA12 : EasyJSON :=
  ⟨JSON_TYPE_OBJECT, some [("a".toList, .slice [.int .int 1, .int .int 2])], none⟩

/-- The document `{"a":[1]}`. -/
def docA1list : EasyJSON :=
  ⟨JSON_TYPE_OBJECT, some [("a".toList, .slice [.int .int 1])], none⟩

/-- The document `[1,2]`. -/
def docRoot12 : EasyJSON :=
  ⟨JSON_TYPE_ARRAY, none, some [.int .int 1, .int .int 2]⟩

/-- The path `a[5]`. -/
def pathA5 : List Segment := [⟨"a".toList, ["5".toList]⟩]

/-- The document `{"a":1}`. -/
def docA1 : EasyJSON := ⟨JSON_TYPE_OBJECT, some [("a".toList, .int .int 1)], none⟩


/-- The document `{"a":{"b":[{"c":1},{"c":2}]}}`. -/
def docNested : EasyJSON :=
  ⟨JSON_TYPE_OBJECT,
    some [("a".toList, .map [("b".toList,
      .slice [.map [("c".toList, .int .int 1)], .map [("c".toList, .int .int 2)]])])],
    none⟩

/-- The path `a.b[0].c`. -/
def pathABC : List Segment :=
  [⟨"a".toList, []⟩, ⟨"b".toList, ["0".toList]⟩, ⟨"c".toList, []⟩]

/-- The record `struct { Name string (alias n); Age int }` with values `bob`, `30`. -/
def recPerson : Val :=
  .struct "main.Person".toList
    [(⟨"Name".toList, "n".toList, true⟩, .str "bob".toList),
     (⟨"Age".toList, [], true⟩, .int .int 30)]

/-- The Go value `[]*EasyJSON{d}` with `d` the document `{"a":1}`. -/
def handlesTyped : Val := .seq "[]*EasyJSON.EasyJSON".toList false [handle docA1]

/-- The Go value `[]interface{}{d}` with `d` the document `{"a":1}`. -/
def handlesUntyped : Val := .slice [handle docA1]

/-- The document `{"s":"x"}`. -/
def docSx : EasyJSON := ⟨JSON_TYPE_OBJECT, some [("s".toList, .str "x".toList)], none⟩

/-- The path `a.b[0][1].c`. -/
def pathAB01C : List Segment :=
  [⟨"a".toList, []⟩, ⟨"b".toList, ["0".toList, "1".toList]⟩, ⟨"c".toList, []⟩]

/-- A decoder that reads the JSON text `"{"` (a string literal holding a brace)
as the string it denotes, as `json.Unmarshal` does, and rejects any other
text. -/
def decodeBraceString (text : Str) : Except Str Val :=
  if text = [dq, '{', dq] then .ok (.str ['{']) else .error "invalid".toList

/-- The document `{"k":1}` as `Object("k", 1)` builds it. -/
def docK1 : EasyJSON := ⟨JSON_TYPE_OBJECT, some [("k".toList, .int .int 1)], none⟩

/-- The document `Object("k", uint64(18446744073709551615))`. -/
def docKmax : EasyJSON :=
  ⟨JSON_TYPE_OBJECT, some [("k".toList, .int .uint64 18446744073709551615)], none⟩

/-- The token with `zeroText` applied to the text of an index. -/
def Token.zeroed : Token → Token
  | .Field name => .Field name
  | .Index t => .Index (zeroText t)

/-- The path `[x]`. -/
def pathBracketX : List Segment := [⟨[], ["x".toList]⟩]

/-- The document `[10,20]`. -/
def docRoot1020 : EasyJSON :=
  ⟨JSON_TYPE_ARRAY, none, some [.int .int 10, .int .int 20]⟩

/-- The token does not fit the node it is applied to: an `Index` token on a
node that is not an array, a `Field` token on a node that is not an object. -/
def Token.mismatches : Token → Val → Bool
  | .Index _, node => (asSlice node).isNone
  | .Field _, node => (asMap node).isNone

/-- The path `a[0]`. -/
def pathA0 : List Segment := [⟨"a".toList, ["0".toList]⟩]

/-- The Go value `&n` for `n := 5`, of type `*int`. -/
def ptrToInt : Val := .ptr "*int".toList (.int .int 5)

/-- The Go value `&p` for `p := &n`, of type `**int`. -/
def ptrToPtr : Val := .ptr "**int".toList ptrToInt

/-- The terminal token addresses something that is not an array: a `Field`
token on an object that lacks the key or holds under it a value that is not an
array, an `Index` token on an array that holds at that position a value that is
not an array. -/
def Token.targetNotArray : Token → Val → Bool
  | .Field name, node =>
    match asMap node with
    | none => false
    | some m =>
      match mapLoad name m with
      | none => true
      | some old => (asSlice old).isNone
  | .Index digits, node =>
    match asSlice node with
    | none => false
    | some a =>
      match a[idxPos digits]? with
      | none => false
      | some elem => (asSlice elem).isNone

/-- The path `a`. -/
def pathA : List Segment := [⟨"a".toList, []⟩]

/-- The path `b`. -/
def pathB : List Segment := [⟨"b".toList, []⟩]

/-- The path `[0]`. -/
def pathIdx0 : List Segment := [⟨[], ["0".toList]⟩]

/-- The path `a.b[0]`. -/
def pathAB0 : List Segment := [⟨"a".toList, []⟩, ⟨"b".toList, ["0".toList]⟩]

/-- The document `{"a":null}`. -/
def docANull : EasyJSON := ⟨JSON_TYPE_OBJECT, some [("a".toList, .null)], none⟩

/-- The Go value `uintptr(7)`. -/
def uintptr7 : Val := .other "uintptr".toList "uintptr".toList 7

/-- The Go value `time.Duration(7)`, of a named type whose kind is `int64`. -/
def duration7 : Val := .other "time.Duration".toList "int64".toList 7

/-- The document `Object("k", uintptr(7))`. -/
def docKuintptr : EasyJSON := ⟨JSON_TYPE_OBJECT, some [("k".toList, uintptr7)], none⟩

/-- The document `Object("k", time.Duration(7))`. -/
def docKduration : EasyJSON := ⟨JSON_TYPE_OBJECT, some [("k".toList, duration7)], none⟩

/-- The Go value `(*int)(nil)`, a nil pointer. -/
def nilIntPtr : Val := .nilPtr "*int".toList

/-- The document `Object("a", map[string]interface{}(nil))`: the key `a` holds
a nil map. -/
def docANilMap : EasyJSON := ⟨JSON_TYPE_OBJECT, some [("a".toList, .nilMap)], none⟩

/-! ## Documents in memory

In Go a `map[string]interface{}` is a reference to a map and a `[]interface{}`
a view (address, length) of an array: `m[name] = value` and `a[index] = value`
write in place, and a map or array stored at two positions is one object. The
definitions below keep the maps and arrays in a memory of cells and repeat
`Get`, `Set`, `Object` and the normalizer over it. -/

/-- A value as it sits in an `interface{}`: a reference to a map cell, a view
of the first `len` positions of an array cell, or, as `leaf`, any value that is
neither a non-nil `map[string]interface{}` nor a non-nil `[]interface{}`. -/
inductive HVal where
  | leaf (v : Val)
  | mapRef (addr : Nat)
  | sliceRef (addr : Nat) (len : Nat)

/-- A cell of the memory: the entries of a map or the positions of an array. -/
inductive Cell where
  | map (entries : List (Str × HVal))
  | arr (elems : List HVal)

/-- Map read `val, ok := m[name]` on the entries of a map cell. -/
def mapLoadH (name : Str) : List (Str × HVal) → Option HVal
  | [] => none
  | (k, v) :: rest => if k = name then some v else mapLoadH name rest

/-- Map write `m[name] = value` on the entries of a map cell. -/
def mapStoreH (name : Str) (value : HVal) : List (Str × HVal) → List (Str × HVal)
  | [] => [(name, value)]
  | (k, v) :: rest =>
    if k = name then (name, value) :: rest else (k, v) :: mapStoreH name value rest

mutual
/-- A normalized value put into memory: every map and every slice in it gets a
fresh cell, from address `base` on; the result is the new cells and the value
that refers to them. -/
def allocVal (base : Nat) : Val → List Cell × HVal
  | .map kvs =>
    ((allocEntries base kvs).1 ++ [.map (allocEntries base kvs).2],
      .mapRef (base + (allocEntries base kvs).1.length))
  | .slice xs =>
    ((allocElems base xs).1 ++ [.arr (allocElems base xs).2],
      .sliceRef (base + (allocElems base xs).1.length) (allocElems base xs).2.length)
  | .null => ([], .leaf .null)
  | .bool b => ([], .leaf (.bool b))
  | .int k n => ([], .leaf (.int k n))
  | .float k bits => ([], .leaf (.float k bits))
  | .str s => ([], .leaf (.str s))
  | .nilSlice => ([], .leaf .nilSlice)
  | .nilMap => ([], .leaf .nilMap)
  | .easyJSON jsonType m a => ([], .leaf (.easyJSON jsonType m a))
  | .nilEasyJSON => ([], .leaf .nilEasyJSON)
  | .ptr ty target => ([], .leaf (.ptr ty target))
  | .nilPtr ty => ([], .leaf (.nilPtr ty))
  | .struct ty fields => ([], .leaf (.struct ty fields))
  | .seq ty isArray xs => ([], .leaf (.seq ty isArray xs))
  | .other ty kind id => ([], .leaf (.other ty kind id))
/-- The entries of a map put into memory one after another. -/
def allocEntries (base : Nat) : List (Str × Val) → List Cell × List (Str × HVal)
  | [] => ([], [])
  | (k, v) :: rest =>
    ((allocVal base v).1 ++ (allocEntries (base + (allocVal base v).1.length) rest).1,
      (k, (allocVal base v).2) :: (allocEntries (base + (allocVal base v).1.length) rest).2)
/-- The elements of a slice put into memory one after another. -/
def allocElems (base : Nat) : List Val → List Cell × List HVal
  | [] => ([], [])
  | v :: rest =>
    ((allocVal base v).1 ++ (allocElems (base + (allocVal base v).1.length) rest).1,
      (allocVal base v).2 :: (allocElems (base + (allocVal base v).1.length) rest).2)
end

theorem isDigit_ne {c : Char} (h : isDigit c = true) :
    c ≠ '.' ∧ c ≠ '[' ∧ c ≠ ']' ∧ c ≠ '-' ∧ c ≠ '+' := by
  refine ⟨?_, ?_, ?_, ?_, ?_⟩ <;> (rintro rfl; revert h; decide)

theorem dropWhile_head_false {α : Type} (p : α → Bool) (s : List α)
    (h : s.head?.all (fun c => !p c) = true) : s.dropWhile p = s := by
  cases s with
  | nil => rfl
  | cons c cs =>
    simp at h
    simp [List.dropWhile, h]

theorem TrimSpace_of_noOuterSpace (s : Str) (h : noOuterSpace s = true) : TrimSpace s = s := by
  unfold noOuterSpace at h
  rw [Bool.and_eq_true] at h
  unfold TrimSpace
  rw [dropWhile_head_false isSpace s h.1]
  rw [dropWhile_head_false isSpace s.reverse (by rw [List.head?_reverse]; exact h.2)]
  exact List.reverse_reverse s

theorem Split_no_dot (s : Str) (h : ∀ c ∈ s, c ≠ '.') : Split s = [s] := by
  induction s with
  | nil => rfl
  | cons c cs ih =>
    have hc : c ≠ '.' := h c (List.mem_cons_self _ _)
    have := ih (fun d hd => h d (List.mem_cons_of_mem _ hd))
    simp [Split, hc, this]

theorem Split_append_dot (s t : Str) (h : ∀ c ∈ s, c ≠ '.') :
    Split (s ++ '.' :: t) = s :: Split t := by
  induction s with
  | nil => simp [Split]
  | cons c cs ih =>
    have hc : c ≠ '.' := h c (List.mem_cons_self _ _)
    have := ih (fun d hd => h d (List.mem_cons_of_mem _ hd))
    simp [Split, hc, this]

theorem idxOK_iff (ds : Str) :
    idxOK ds = true ↔ ds ≠ [] ∧ (∀ c ∈ ds, isDigit c = true) := by
  simp [idxOK]

theorem nameOK_iff (name : Str) :
    nameOK name = true ↔ ∀ c ∈ name, c ≠ '.' ∧ c ≠ '[' := by
  simp [nameOK]

theorem Segment.wf_iff (seg : Segment) :
    seg.wf = true ↔ nameOK seg.name = true ∧ (∀ ds ∈ seg.idxs, idxOK ds = true) ∧
      (seg.name ≠ [] ∨ seg.idxs ≠ []) := by
  simp [Segment.wf, and_assoc]

theorem pathWF_iff (segs : List Segment) :
    pathWF segs = true ↔ segs ≠ [] ∧ (∀ seg ∈ segs, seg.wf = true) ∧
      noOuterSpace (renderPath segs) = true := by
  simp [pathWF, and_assoc]

theorem renderIdxs_no_dot (idxs : List Str) (h : ∀ ds ∈ idxs, idxOK ds = true) :
    ∀ c ∈ renderIdxs idxs, c ≠ '.' := by
  induction idxs with
  | nil => simp [renderIdxs]
  | cons ds rest ih =>
    intro c hc
    have hds := (idxOK_iff ds).1 (h ds (List.mem_cons_self _ _))
    simp only [renderIdxs, List.mem_cons, List.mem_append] at hc
    rcases hc with (rfl | hc) | rfl | hc
    · decide
    · exact (isDigit_ne (hds.2 c hc)).1
    · decide
    · exact ih (fun d hd => h d (List.mem_cons_of_mem _ hd)) c hc

theorem Segment.render_no_dot (seg : Segment) (h : seg.wf = true) :
    ∀ c ∈ seg.render, c ≠ '.' := by
  rw [Segment.wf_iff] at h
  intro c hc
  simp only [Segment.render, List.mem_append] at hc
  rcases hc with hc | hc
  · exact ((nameOK_iff _).1 h.1 c hc).1
  · exact renderIdxs_no_dot _ h.2.1 c hc

theorem Split_renderPath (segs : List Segment) (hne : segs ≠ [])
    (h : ∀ seg ∈ segs, seg.wf = true) :
    Split (renderPath segs) = segs.map Segment.render := by
  induction segs with
  | nil => exact absurd rfl hne
  | cons seg rest ih =>
    cases rest with
    | nil =>
      simp only [renderPath, List.map]
      exact Split_no_dot _ (Segment.render_no_dot seg (h seg (List.mem_cons_self _ _)))
    | cons seg2 rest2 =>
      simp only [renderPath, List.map] at ih ⊢
      rw [Split_append_dot _ _ (Segment.render_no_dot seg (h seg (List.mem_cons_self _ _)))]
      rw [ih (by simp) (fun s hs => h s (List.mem_cons_of_mem _ hs))]

theorem scanSnippet_idxs (idxs : List Str) (hidx : ∀ ds ∈ idxs, idxOK ds = true) :
    ∀ (ds acc : Str), (∀ c ∈ ds, c ≠ ']') →
      scanSnippet '[' acc (ds ++ ']' :: renderIdxs idxs)
        = .ok ((acc ++ ds ++ [']']) :: idxs.map (fun d => Token.text (.Index d))) := by
  induction idxs with
  | nil =>
    intro ds
    induction ds with
    | nil => intro acc _; simp [renderIdxs, scanSnippet]
    | cons c ds' ih =>
      intro acc hds
      have hc : c ≠ ']' := hds c (List.mem_cons_self _ _)
      have ih' := ih (acc ++ [c]) (fun d hd => hds d (List.mem_cons_of_mem _ hd))
      cases hrem : ds' ++ ']' :: renderIdxs [] with
      | nil => simp at hrem
      | cons b r =>
        rw [hrem] at ih'
        simp only [List.cons_append, hrem]
        rw [scanSnippet]
        simp [hc, ih']
  | cons d rest ihr =>
    have hd := (idxOK_iff d).1 (hidx d (List.mem_cons_self _ _))
    have hrest := ihr (fun x hx => hidx x (List.mem_cons_of_mem _ hx)) d ['[']
      (fun c hc => (isDigit_ne (hd.2 c hc)).2.2.1)
    intro ds
    induction ds with
    | nil =>
      intro acc _
      cases hrem : d ++ ']' :: renderIdxs rest with
      | nil => simp at hrem
      | cons b r =>
        rw [hrem] at hrest
        simp only [renderIdxs, List.nil_append, List.cons_append, hrem]
        rw [scanSnippet]
        simp [hrest, consName, Res.map, Token.text]
    | cons c ds' ih =>
      intro acc hds
      have hc : c ≠ ']' := hds c (List.mem_cons_self _ _)
      have ih' := ih (acc ++ [c]) (fun d hd => hds d (List.mem_cons_of_mem _ hd))
      cases hrem : ds' ++ ']' :: renderIdxs (d :: rest) with
      | nil => simp at hrem
      | cons b r =>
        rw [hrem] at ih'
        simp only [List.cons_append, hrem]
        rw [scanSnippet]
        simp [hc, ih']

theorem scanSnippet_field (b : Char) (hb : b ≠ '[') (idxs : List Str)
    (hidx : ∀ ds ∈ idxs, idxOK ds = true) :
    ∀ (cs acc : Str), (∀ c ∈ cs, c ≠ '[') → (cs ≠ [] ∨ idxs ≠ []) →
      scanSnippet b acc (cs ++ renderIdxs idxs)
        = .ok ((acc ++ cs) :: idxs.map (fun d => Token.text (.Index d))) := by
  intro cs
  induction cs with
  | nil =>
    intro acc _ hne
    cases idxs with
    | nil => simp at hne
    | cons d rest =>
      have hd := (idxOK_iff d).1 (hidx d (List.mem_cons_self _ _))
      have hrest := scanSnippet_idxs rest (fun x hx => hidx x (List.mem_cons_of_mem _ hx)) d ['[']
        (fun c hc => (isDigit_ne (hd.2 c hc)).2.2.1)
      cases hrem : d ++ ']' :: renderIdxs rest with
      | nil => simp at hrem
      | cons b' r =>
        rw [hrem] at hrest
        simp only [renderIdxs, List.nil_append, List.cons_append, hrem]
        rw [scanSnippet]
        simp [hb, hrest, consName, Res.map, Token.text]
  | cons c cs' ih =>
    intro acc hcs _
    have hc : c ≠ '[' := hcs c (List.mem_cons_self _ _)
    cases hrem : cs' ++ renderIdxs idxs with
    | nil =>
      have h1 : cs' = [] := (List.append_eq_nil.1 hrem).1
      have h2 : idxs = [] := by
        cases idxs with
        | nil => rfl
        | cons d r => simp [renderIdxs] at hrem
      subst h1; subst h2
      simp [renderIdxs, scanSnippet, hb]
    | cons b' r =>
      have hne' : cs' ≠ [] ∨ idxs ≠ [] := by
        by_contra hcon
        push_neg at hcon
        rw [hcon.1, hcon.2] at hrem
        simp [renderIdxs] at hrem
      have ih' := ih (acc ++ [c]) (fun d hd => hcs d (List.mem_cons_of_mem _ hd)) hne'
      rw [hrem] at ih'
      simp only [List.cons_append, hrem]
      rw [scanSnippet]
      simp [hb, hc, ih']

theorem scanSnippet_segment (seg : Segment) (h : seg.wf = true) :
    ∃ x rest, seg.render = x :: rest ∧
      scanSnippet x [] seg.render = .ok (seg.tokens.map Token.text) := by
  obtain ⟨name, idxs⟩ := seg
  rw [Segment.wf_iff] at h
  obtain ⟨hn, hi, hne⟩ := h
  simp only at hn hi hne
  cases name with
  | nil =>
    cases idxs with
    | nil => simp at hne
    | cons d rest =>
      have hd := (idxOK_iff d).1 (hi d (List.mem_cons_self _ _))
      refine ⟨'[', d ++ ']' :: renderIdxs rest, by simp [Segment.render, renderIdxs], ?_⟩
      have := scanSnippet_idxs rest (fun x hx => hi x (List.mem_cons_of_mem _ hx)) ('[' :: d) []
        (by
          intro c hc
          rcases List.mem_cons.1 hc with rfl | hc
          · decide
          · exact (isDigit_ne (hd.2 c hc)).2.2.1)
      simpa [Segment.render, renderIdxs, Segment.tokens, Token.text] using this
  | cons c cs =>
    have hc := ((nameOK_iff _).1 hn c (List.mem_cons_self _ _)).2
    refine ⟨c, cs ++ renderIdxs idxs, by simp [Segment.render], ?_⟩
    have := scanSnippet_field c hc idxs hi (c :: cs) []
      (fun x hx => ((nameOK_iff _).1 hn x hx).2) (Or.inl (by simp))
    simpa [Segment.render, Segment.tokens, Token.text] using this

theorem parseSnippets_render (segs : List Segment) (h : ∀ seg ∈ segs, seg.wf = true) :
    parseSnippets (segs.map Segment.render) = .ok ((pathTokens segs).map Token.text) := by
  induction segs with
  | nil => rfl
  | cons seg rest ih =>
    obtain ⟨x, r, hx, hscan⟩ := scanSnippet_segment seg (h seg (List.mem_cons_self _ _))
    have ih' := ih (fun s hs => h s (List.mem_cons_of_mem _ hs))
    simp only [List.map_cons, parseSnippets]
    rw [hx] at hscan ⊢
    simp only [hscan, ih', Res.bind, Res.map, pathTokens, List.map_append]

/-- The parser on the text of a well-formed path gives the token texts. -/
theorem parsePath_renderPath (segs : List Segment) (h : pathWF segs = true) :
    parsePath (renderPath segs) = .ok ((pathTokens segs).map Token.text) := by
  rw [pathWF_iff] at h
  unfold parsePath
  rw [TrimSpace_of_noOuterSpace _ h.2.2, Split_renderPath segs h.1 h.2.1]
  exact parseSnippets_render segs h.2.1

/-! ## Lemmas on the traversals -/

theorem Atoi_digits (ds : Str) (h : idxOK ds = true) : Atoi ds = (idxPos ds : Int) := by
  obtain ⟨hne, hdig⟩ := (idxOK_iff ds).1 h
  cases ds with
  | nil => exact absurd rfl hne
  | cons c r =>
    have hc := isDigit_ne (hdig c (List.mem_cons_self _ _))
    have hall : (c :: r).all isDigit = true := by
      simpa using hdig
    simp only [Atoi, hc.2.2.2.1, hc.2.2.2.2, decide_False, or_self, if_false, List.isEmpty_cons,
      hall, Bool.not_true, Bool.or_self, Bool.false_eq_true]
    unfold idxPos maxInt
    split
    · rename_i hgt
      have : (9223372036854775807 : Nat) ≤ decVal (c :: r) := by omega
      simp [Nat.min_eq_right this]
    · rename_i hle
      have : decVal (c :: r) ≤ (9223372036854775807 : Nat) := by omega
      simp [Nat.min_eq_left this]

theorem idxPos_of_fits (ds : Str) (h : (decVal ds : Int) ≤ maxInt) : idxPos ds = decVal ds := by
  unfold idxPos
  unfold maxInt at *
  have : decVal ds ≤ (9223372036854775807 : Nat) := by omega
  simpa using this

theorem stripBrackets_text (ds : Str) : stripBrackets (Token.text (.Index ds)) = ds := by
  simp [stripBrackets, Token.text]

theorem getLoop_index (ds : Str) (h : idxOK ds = true) (v : Val) (rest : List Str) :
    getLoop v (Token.text (.Index ds) :: rest) =
      match asSlice v with
      | none => .panic .typeAssertion
      | some a =>
        if a.length ≤ idxPos ds then .err .ErrIndexOutOfBounds
        else
          match a[idxPos ds]? with
          | none => .panic .indexOutOfRange
          | some elem => getLoop elem rest := by
  have hlen : ¬ (('[' :: (ds ++ [']'])).length < 2) := by simp
  have hstrip : stripBrackets ('[' :: (ds ++ [']'])) = ds := stripBrackets_text ds
  have h2 : ¬ ((idxPos ds : Int) < 0) := by simp
  show getLoop v (('[' :: (ds ++ [']'])) :: rest) = _
  simp only [getLoop, if_true, hlen, if_false, hstrip, Atoi_digits ds h, ge_iff_le, Nat.cast_le,
    Int.toNat_ofNat, h2]

theorem getLoop_field (name : Str) (h : (Token.Field name).wf = true) (v : Val)
    (rest : List Str) :
    getLoop v (Token.text (.Field name) :: rest) =
      match asMap v with
      | none => .panic .typeAssertion
      | some m =>
        match mapLoad name m with
        | none => .err .ErrFieldNotExists
        | some val => getLoop val rest := by
  simp only [Token.wf, Bool.and_eq_true, Bool.not_eq_true', List.isEmpty_eq_false] at h
  cases name with
  | nil => simp at h
  | cons c cs =>
    have hc := ((nameOK_iff _).1 h.2 c (List.mem_cons_self _ _)).2
    simp only [Token.text, getLoop, hc, if_false]

theorem setLoop_index (nv : Val) (ds : Str) (h : idxOK ds = true) (v : Val) (rest : List Str) :
    setLoop nv v (Token.text (.Index ds) :: rest) =
      match asSlice v with
      | none => .panic .typeAssertion
      | some a =>
        if a.length ≤ idxPos ds then .err .ErrIndexOutOfBounds
        else if rest.isEmpty then .ok (.slice (a.set (idxPos ds) nv))
        else
          match a[idxPos ds]? with
          | none => .panic .indexOutOfRange
          | some elem =>
            (setLoop nv elem rest).map fun elem' => .slice (a.set (idxPos ds) elem') := by
  have hlen : ¬ (('[' :: (ds ++ [']'])).length < 2) := by simp
  have hstrip : stripBrackets ('[' :: (ds ++ [']'])) = ds := stripBrackets_text ds
  have h2 : ¬ ((idxPos ds : Int) < 0) := by simp
  show setLoop nv v (('[' :: (ds ++ [']'])) :: rest) = _
  simp only [setLoop, if_true, hlen, if_false, hstrip, Atoi_digits ds h, ge_iff_le, Nat.cast_le,
    Int.toNat_ofNat, h2]

theorem setLoop_field (nv : Val) (name : Str) (h : (Token.Field name).wf = true) (v : Val)
    (rest : List Str) :
    setLoop nv v (Token.text (.Field name) :: rest) =
      match asMap v with
      | none => .panic .typeAssertion
      | some m =>
        if rest.isEmpty then
          match v with
          | .nilMap => .panic .nilMapWrite
          | _ => .ok (.map (mapStore name nv m))
        else
          match mapLoad name m with
          | none => .err .ErrFieldNotExists
          | some val => (setLoop nv val rest).map fun val' => .map (mapStore name val' m) := by
  simp only [Token.wf, Bool.and_eq_true, Bool.not_eq_true', List.isEmpty_eq_false] at h
  cases name with
  | nil => simp at h
  | cons c cs =>
    have hc := ((nameOK_iff _).1 h.2 c (List.mem_cons_self _ _)).2
    simp only [Token.text, setLoop, hc, if_false]

theorem appendLoop_index (nv : Val) (ds : Str) (h : idxOK ds = true) (v : Val)
    (rest : List Str) :
    appendLoop nv v (Token.text (.Index ds) :: rest) =
      match asSlice v with
      | none => .panic .typeAssertion
      | some a =>
        if a.length ≤ idxPos ds then .err .ErrIndexOutOfBounds
        else
          match a[idxPos ds]? with
          | none => .panic .indexOutOfRange
          | some elem =>
            if rest.isEmpty then
              match asSlice elem with
              | none => .panic .typeAssertion
              | some xs => .ok (.slice (a.set (idxPos ds) (.slice (xs ++ [nv]))))
            else
              (appendLoop nv elem rest).map fun elem' => .slice (a.set (idxPos ds) elem') := by
  have hlen : ¬ (('[' :: (ds ++ [']'])).length < 2) := by simp
  have hstrip : stripBrackets ('[' :: (ds ++ [']'])) = ds := stripBrackets_text ds
  have h2 : ¬ ((idxPos ds : Int) < 0) := by simp
  show appendLoop nv v (('[' :: (ds ++ [']'])) :: rest) = _
  simp only [appendLoop, if_true, hlen, if_false, hstrip, Atoi_digits ds h, ge_iff_le,
    Nat.cast_le, Int.toNat_ofNat, h2]

theorem appendLoop_field (nv : Val) (name : Str) (h : (Token.Field name).wf = true) (v : Val)
    (rest : List Str) :
    appendLoop nv v (Token.text (.Field name) :: rest) =
      match asMap v with
      | none => .panic .typeAssertion
      | some m =>
        if rest.isEmpty then
          match mapLoad name m with
          | none => .panic .typeAssertion
          | some old =>
            match asSlice old with
            | none => .panic .typeAssertion
            | some xs => .ok (.map (mapStore name (.slice (xs ++ [nv])) m))
        else
          match mapLoad name m with
          | none => .err .ErrFieldNotExists
          | some val =>
            (appendLoop nv val rest).map fun val' => .map (mapStore name val' m) := by
  simp only [Token.wf, Bool.and_eq_true, Bool.not_eq_true', List.isEmpty_eq_false] at h
  cases name with
  | nil => simp at h
  | cons c cs =>
    have hc := ((nameOK_iff _).1 h.2 c (List.mem_cons_self _ _)).2
    simp only [Token.text, appendLoop, hc, if_false]

theorem mapLoad_mapStore_same (name : Str) (x : Val) (m : List (Str × Val)) :
    mapLoad name (mapStore name x m) = some x := by
  induction m with
  | nil => simp [mapStore, mapLoad]
  | cons kv rest ih =>
    obtain ⟨k, v⟩ := kv
    by_cases hk : k = name
    · simp [mapStore, mapLoad, hk]
    · simp [mapStore, mapLoad, hk, ih]

theorem getLoop_append (toks : List Token) (hwf : ∀ t ∈ toks, t.wf = true) :
    ∀ (v w : Val), follow v toks = some w → ∀ names : List Str,
      getLoop v (toks.map Token.text ++ names) = getLoop w names := by
  induction toks with
  | nil =>
    intro v w h names
    simp only [follow, Option.some.injEq] at h
    simp [h]
  | cons t rest ih =>
    intro v w h names
    have hrest : ∀ t ∈ rest, t.wf = true := fun t ht => hwf t (List.mem_cons_of_mem _ ht)
    have ht := hwf t (List.mem_cons_self _ _)
    cases t with
    | Field name =>
      simp only [follow] at h
      simp only [List.map_cons, List.cons_append]
      rw [getLoop_field name ht]
      cases hm : asMap v with
      | none => simp [hm] at h
      | some m =>
        simp only [hm] at h ⊢
        cases hl : mapLoad name m with
        | none => simp [hl] at h
        | some val =>
          simp only [hl] at h ⊢
          exact ih hrest val w h names
    | Index ds =>
      simp only [follow] at h
      simp only [List.map_cons, List.cons_append]
      rw [getLoop_index ds ht]
      cases ha : asSlice v with
      | none => simp [ha] at h
      | some a =>
        simp only [ha] at h ⊢
        cases hg : a[idxPos ds]? with
        | none => simp [hg] at h
        | some elem =>
          simp only [hg] at h
          have hlt : idxPos ds < a.length := (List.getElem?_eq_some_iff.1 hg).1
          simp only [not_le.2 hlt, if_false]
          exact ih hrest elem w h names

theorem Res.map_map {α β γ : Type} (f : α → β) (g : β → γ) (r : Res α) :
    (r.map f).map g = r.map (fun a => g (f a)) := by
  cases r <;> rfl

theorem Res.map_id {α : Type} (r : Res α) : r.map (fun a => a) = r := by
  cases r <;> rfl

theorem isEmpty_map_append_cons (pre : List Token) (name : Str) (names : List Str) :
    (pre.map Token.text ++ name :: names).isEmpty = false := by
  cases pre <;> rfl

theorem setLoop_append (nv : Val) (toks : List Token) (hwf : ∀ t ∈ toks, t.wf = true) :
    ∀ (v w : Val), follow v toks = some w → ∀ (name : Str) (names : List Str),
      setLoop nv v (toks.map Token.text ++ name :: names)
        = (setLoop nv w (name :: names)).map (graft v toks) := by
  induction toks with
  | nil =>
    intro v w h name names
    simp only [follow, Option.some.injEq] at h
    subst h
    simp only [List.map_nil, List.nil_append]
    have : graft v [] = fun a => a := by funext a; simp [graft]
    rw [this, Res.map_id]
  | cons t rest ih =>
    intro v w h name names
    have hrest : ∀ t ∈ rest, t.wf = true := fun t ht => hwf t (List.mem_cons_of_mem _ ht)
    have ht := hwf t (List.mem_cons_self _ _)
    have hne := isEmpty_map_append_cons rest name names
    cases t with
    | Field k =>
      simp only [follow] at h
      simp only [List.map_cons, List.cons_append]
      rw [setLoop_field nv k ht]
      cases hm : asMap v with
      | none => simp [hm] at h
      | some m =>
        simp only [hm] at h ⊢
        cases hl : mapLoad k m with
        | none => simp [hl] at h
        | some val =>
          simp only [hl] at h ⊢
          simp only [hne, Bool.false_eq_true, if_false]
          rw [ih hrest val w h name names, Res.map_map]
          congr 1
          funext x
          simp [graft, hm, hl]
    | Index ds =>
      simp only [follow] at h
      simp only [List.map_cons, List.cons_append]
      rw [setLoop_index nv ds ht]
      cases ha : asSlice v with
      | none => simp [ha] at h
      | some a =>
        simp only [ha] at h ⊢
        cases hg : a[idxPos ds]? with
        | none => simp [hg] at h
        | some elem =>
          simp only [hg] at h
          have hlt : idxPos ds < a.length := (List.getElem?_eq_some_iff.1 hg).1
          simp only [not_le.2 hlt, if_false, hne, Bool.false_eq_true]
          rw [ih hrest elem w h name names, Res.map_map]
          congr 1
          funext x
          simp [graft, ha, hg]

theorem appendLoop_append (nv : Val) (toks : List Token) (hwf : ∀ t ∈ toks, t.wf = true) :
    ∀ (v w : Val), follow v toks = some w → ∀ (name : Str) (names : List Str),
      appendLoop nv v (toks.map Token.text ++ name :: names)
        = (appendLoop nv w (name :: names)).map (graft v toks) := by
  induction toks with
  | nil =>
    intro v w h name names
    simp only [follow, Option.some.injEq] at h
    subst h
    simp only [List.map_nil, List.nil_append]
    have : graft v [] = fun a => a := by funext a; simp [graft]
    rw [this, Res.map_id]
  | cons t rest ih =>
    intro v w h name names
    have hrest : ∀ t ∈ rest, t.wf = true := fun t ht => hwf t (List.mem_cons_of_mem _ ht)
    have ht := hwf t (List.mem_cons_self _ _)
    have hne := isEmpty_map_append_cons rest name names
    cases t with
    | Field k =>
      simp only [follow] at h
      simp only [List.map_cons, List.cons_append]
      rw [appendLoop_field nv k ht]
      cases hm : asMap v with
      | none => simp [hm] at h
      | some m =>
        simp only [hm] at h ⊢
        cases hl : mapLoad k m with
        | none => simp [hl] at h
        | some val =>
          simp only [hl] at h ⊢
          simp only [hne, Bool.false_eq_true, if_false]
          rw [ih hrest val w h name names, Res.map_map]
          congr 1
          funext x
          simp [graft, hm, hl]
    | Index ds =>
      simp only [follow] at h
      simp only [List.map_cons, List.cons_append]
      rw [appendLoop_index nv ds ht]
      cases ha : asSlice v with
      | none => simp [ha] at h
      | some a =>
        simp only [ha] at h ⊢
        cases hg : a[idxPos ds]? with
        | none => simp [hg] at h
        | some elem =>
          simp only [hg] at h
          have hlt : idxPos ds < a.length := (List.getElem?_eq_some_iff.1 hg).1
          simp only [not_le.2 hlt, if_false, hne, Bool.false_eq_true]
          rw [ih hrest elem w h name names, Res.map_map]
          congr 1
          funext x
          simp [graft, ha, hg]

theorem follow_graft (toks : List Token) :
    ∀ (v w x : Val), follow v toks = some w → follow (graft v toks x) toks = some x := by
  induction toks with
  | nil => intro v w x _; simp [graft, follow]
  | cons t rest ih =>
    intro v w x h
    cases t with
    | Field k =>
      simp only [follow] at h
      cases hm : asMap v with
      | none => simp [hm] at h
      | some m =>
        simp only [hm] at h
        cases hl : mapLoad k m with
        | none => simp [hl] at h
        | some val =>
          simp only [hl] at h
          simp only [graft, hm, hl]
          simp only [follow, asMap, mapLoad_mapStore_same]
          exact ih val w x h
    | Index ds =>
      simp only [follow] at h
      cases ha : asSlice v with
      | none => simp [ha] at h
      | some a =>
        simp only [ha] at h
        cases hg : a[idxPos ds]? with
        | none => simp [hg] at h
        | some elem =>
          simp only [hg] at h
          have hlt : idxPos ds < a.length := (List.getElem?_eq_some_iff.1 hg).1
          simp only [graft, ha, hg]
          simp only [follow, asSlice, List.getElem?_set_self hlt]
          exact ih elem w x h

theorem graft_keepsRoot (toks : List Token) (v w x : Val) (h : follow v toks = some w)
    (hx : keepsRoot w x) : keepsRoot v (graft v toks x) := by
  cases toks with
  | nil =>
    simp only [follow, Option.some.injEq] at h
    subst h
    simpa [graft] using hx
  | cons t rest =>
    cases t with
    | Field k =>
      simp only [follow] at h
      cases hm : asMap v with
      | none => simp [hm] at h
      | some m =>
        simp only [hm] at h
        cases hl : mapLoad k m with
        | none => simp [hl] at h
        | some val =>
          left
          exact ⟨mapStore k (graft val rest x) m, by simp only [graft, hm, hl], by simp [hm]⟩
    | Index ds =>
      simp only [follow] at h
      cases ha : asSlice v with
      | none => simp [ha] at h
      | some a =>
        simp only [ha] at h
        cases hg : a[idxPos ds]? with
        | none => simp [hg] at h
        | some elem =>
          right
          exact ⟨a.set (idxPos ds) (graft elem rest x), by simp only [graft, ha, hg], by simp [ha]⟩

theorem rootVal_withRoot (e : EasyJSON) (r : Val) (h : keepsRoot (rootVal e) r) :
    rootVal (withRoot e r) = r := by
  unfold keepsRoot at h
  by_cases hj : e.jsonType = JSON_TYPE_OBJECT
  · rcases h with ⟨kvs, rfl, _⟩ | ⟨xs, rfl, hs⟩
    · simp [rootVal, withRoot, hj, mapVal]
    · exfalso
      simp only [rootVal, hj, if_true] at hs
      cases hm : e.m <;> simp [hm, mapVal, asSlice] at hs
  · rcases h with ⟨kvs, rfl, hs⟩ | ⟨xs, rfl, _⟩
    · exfalso
      simp only [rootVal, hj, if_false] at hs
      cases ha : e.a <;> simp [ha, sliceVal, asMap] at hs
    · simp [rootVal, withRoot, hj, sliceVal]

theorem renderPath_ne_nil (segs : List Segment) (h : pathWF segs = true) :
    renderPath segs ≠ [] := by
  obtain ⟨hne, hwf, _⟩ := (pathWF_iff segs).1 h
  cases segs with
  | nil => exact absurd rfl hne
  | cons seg rest =>
    obtain ⟨x, r, hx, _⟩ := scanSnippet_segment seg (hwf seg (List.mem_cons_self _ _))
    cases rest with
    | nil => simp [renderPath, hx]
    | cons s2 r2 => simp [renderPath, hx]

theorem wf_of_mem_append {pre post : List Token} {t : Token} {toks : List Token}
    (h : toks = pre ++ t :: post) (hwf : ∀ x ∈ toks, x.wf = true) :
    (∀ x ∈ pre, x.wf = true) ∧ t.wf = true ∧ (∀ x ∈ post, x.wf = true) := by
  subst h
  refine ⟨fun x hx => hwf x (by simp [hx]), hwf t (by simp), fun x hx => hwf x (by simp [hx])⟩

theorem Segment.tokens_wf (seg : Segment) (h : seg.wf = true) :
    ∀ t ∈ seg.tokens, t.wf = true := by
  rw [Segment.wf_iff] at h
  intro t ht
  simp only [Segment.tokens, List.mem_append, List.mem_map] at ht
  rcases ht with ht | ⟨ds, hds, rfl⟩
  · by_cases hn : seg.name = []
    · simp [hn] at ht
    · simp only [hn, if_false, List.mem_singleton] at ht
      subst ht
      simp [Token.wf, hn, h.1]
  · exact h.2.1 ds hds

theorem pathTokens_wf (segs : List Segment) (h : pathWF segs = true) :
    ∀ t ∈ pathTokens segs, t.wf = true := by
  have h := ((pathWF_iff segs).1 h).2.1
  clear * - h
  induction segs with
  | nil => simp [pathTokens]
  | cons seg rest ih =>
    intro t ht
    simp only [pathTokens, List.mem_append] at ht
    rcases ht with ht | ht
    · exact Segment.tokens_wf seg (h seg (List.mem_cons_self _ _)) t ht
    · exact ih (fun s hs => h s (List.mem_cons_of_mem _ hs)) t ht

theorem plainName_pathWF (k : Str) (h : plainName k = true) :
    pathWF [⟨k, []⟩] = true ∧ renderPath [⟨k, []⟩] = k ∧ pathTokens [⟨k, []⟩] = [Token.Field k] := by
  simp only [plainName, Bool.and_eq_true, Bool.not_eq_true', List.isEmpty_eq_false] at h
  obtain ⟨⟨hne, hn⟩, hs⟩ := h
  have hr : renderPath [⟨k, []⟩] = k := by simp [renderPath, Segment.render, renderIdxs]
  have hne' : ¬ (k = []) := by
    intro hk; rw [hk] at hne; simp at hne
  refine ⟨?_, hr, ?_⟩
  · rw [pathWF_iff]
    refine ⟨by simp, ?_, by rw [hr]; exact hs⟩
    intro seg hseg
    simp only [List.mem_singleton] at hseg
    subst hseg
    rw [Segment.wf_iff]
    exact ⟨hn, by simp, Or.inl hne'⟩
  · simp [pathTokens, Segment.tokens, hne']

theorem Res.map_eq_ok {α β : Type} {f : α → β} {r : Res α} {y : β} (h : r.map f = .ok y) :
    ∃ x, r = .ok x ∧ f x = y := by
  cases r with
  | ok a => exact ⟨a, rfl, by simpa [Res.map] using h⟩
  | err e => simp [Res.map] at h
  | panic p => simp [Res.map] at h

theorem asMap_map (kvs : List (Str × Val)) : asMap (.map kvs) = some kvs := rfl

theorem asSlice_slice (xs : List Val) : asSlice (.slice xs) = some xs := rfl

theorem asSlice_map (kvs : List (Str × Val)) : asSlice (.map kvs) = none := rfl

theorem asMap_slice (xs : List Val) : asMap (.slice xs) = none := rfl

theorem asSlice_of_asMap {v : Val} {m : List (Str × Val)} (h : asMap v = some m) :
    asSlice v = none := by
  cases v <;> first | rfl | (simp [asMap] at h)

theorem asMap_of_asSlice {v : Val} {a : List Val} (h : asSlice v = some a) :
    asMap v = none := by
  cases v <;> first | rfl | (simp [asSlice] at h)

theorem consName_ok {name : Str} {r : Res (List Str)} {names : List Str}
    (h : consName name r = .ok names) : names ≠ [] := by
  unfold consName at h
  obtain ⟨x, _, hx⟩ := Res.map_eq_ok h
  rw [← hx]; simp

theorem scanSnippet_ne_nil (l : Str) :
    ∀ (b : Char) (acc : Str) (names : List Str), scanSnippet b acc l = .ok names → names ≠ [] := by
  induction l with
  | nil => intro b acc names h; simp [scanSnippet] at h
  | cons ch rest ih =>
    intro b acc names h
    cases rest with
    | nil =>
      simp only [scanSnippet] at h
      split at h
      · split at h
        · simp only [Res.ok.injEq] at h; rw [← h]; simp
        · simp at h
      · simp only [Res.ok.injEq] at h; rw [← h]; simp
    | cons c r =>
      rw [scanSnippet] at h
      split at h
      · split at h
        · exact consName_ok h
        · exact ih _ _ _ h
      · split at h
        · exact consName_ok h
        · exact ih _ _ _ h

theorem Split_ne_nil (s : Str) : Split s ≠ [] := by
  cases s with
  | nil => simp [Split]
  | cons c cs =>
    simp only [Split]
    split
    · simp
    · split <;> simp

theorem parsePath_ne_nil (path : Str) (names : List Str) (h : parsePath path = .ok names) :
    names ≠ [] := by
  unfold parsePath at h
  cases hs : Split (TrimSpace path) with
  | nil => exact absurd hs (Split_ne_nil _)
  | cons snippet more =>
    rw [hs] at h
    cases snippet with
    | nil => simp [parseSnippets] at h
    | cons b rest =>
      simp only [parseSnippets] at h
      cases hsc : scanSnippet b [] (b :: rest) with
      | err e => simp [hsc, Res.bind] at h
      | panic p => simp [hsc, Res.bind] at h
      | ok ns =>
        simp only [hsc, Res.bind] at h
        obtain ⟨x, _, hx⟩ := Res.map_eq_ok h
        have := scanSnippet_ne_nil _ _ _ _ hsc
        rw [← hx]
        simp [this]


theorem appendLoop_then_getLoop (nv : Val) (xs : List Val) (names : List Str) :
    ∀ (v arr : Val), names ≠ [] → getLoop v names = .ok arr → asSlice arr = some xs →
      ∃ r, appendLoop nv v names = .ok r ∧
        getLoop r names = .ok (.slice (xs ++ [nv])) ∧ keepsRoot v r := by
  induction names with
  | nil => intro v arr h; exact absurd rfl h
  | cons name rest ih =>
    intro v arr _ hget harr
    cases name with
    | nil => simp [getLoop] at hget
    | cons ch cs =>
      by_cases hch : ch = '['
      · subst hch
        simp only [getLoop, if_true] at hget
        by_cases hlen : ('[' :: cs).length < 2
        · rw [if_pos hlen] at hget; cases hget
        · rw [if_neg hlen] at hget
          cases ha : asSlice v with
          | none => rw [ha] at hget; cases hget
          | some a =>
            rw [ha] at hget
            simp only at hget
            by_cases hge : Atoi (stripBrackets ('[' :: cs)) ≥ (a.length : Int)
            · rw [if_pos hge] at hget; cases hget
            · rw [if_neg hge] at hget
              by_cases hneg : Atoi (stripBrackets ('[' :: cs)) < 0
              · rw [if_pos hneg] at hget; cases hget
              · rw [if_neg hneg] at hget
                cases hg : a[(Atoi (stripBrackets ('[' :: cs))).toNat]? with
                | none => rw [hg] at hget; cases hget
                | some elem =>
                  rw [hg] at hget
                  simp only at hget
                  have hlt : (Atoi (stripBrackets ('[' :: cs))).toNat < a.length :=
                    (List.getElem?_eq_some_iff.1 hg).1
                  have happ : appendLoop nv v (('[' :: cs) :: rest) =
                      if rest.isEmpty then
                        match asSlice elem with
                        | none => .panic .typeAssertion
                        | some ys => .ok (.slice (a.set
                            (Atoi (stripBrackets ('[' :: cs))).toNat (.slice (ys ++ [nv]))))
                      else
                        (appendLoop nv elem rest).map fun e2 =>
                          .slice (a.set (Atoi (stripBrackets ('[' :: cs))).toNat e2) := by
                    simp only [appendLoop, if_true]
                    rw [if_neg hlen, ha]
                    simp only
                    rw [if_neg hge, if_neg hneg, hg]
                    try rfl
                  have hget2 : ∀ r2 : Val,
                      getLoop (.slice (a.set (Atoi (stripBrackets ('[' :: cs))).toNat r2))
                        (('[' :: cs) :: rest) = getLoop r2 rest := by
                    intro r2
                    simp only [getLoop, if_true]
                    rw [if_neg hlen, asSlice_slice]
                    simp only [List.length_set]
                    rw [if_neg hge, if_neg hneg, List.getElem?_set_self hlt]
                  cases hrest : rest with
                  | nil =>
                    subst hrest
                    simp only [getLoop, Res.ok.injEq] at hget
                    subst hget
                    refine ⟨.slice (a.set (Atoi (stripBrackets ('[' :: cs))).toNat
                      (.slice (xs ++ [nv]))), ?_, ?_, Or.inr ⟨_, rfl, by simp [ha]⟩⟩
                    · rw [happ]
                      simp only [List.isEmpty_nil, if_true, harr]
                    · rw [hget2]
                      simp only [getLoop]
                  | cons n2 r2 =>
                    obtain ⟨r, hr1, hr2, _⟩ := ih elem arr (by simp [hrest]) hget harr
                    refine ⟨.slice (a.set (Atoi (stripBrackets ('[' :: cs))).toNat r), ?_, ?_,
                      Or.inr ⟨_, rfl, by simp [ha]⟩⟩
                    · rw [← hrest, happ, hr1]
                      simp only [hrest, List.isEmpty_cons, Bool.false_eq_true, if_false, Res.map]
                    · rw [← hrest, hget2]
                      exact hr2
      · simp only [getLoop, hch, if_false] at hget
        cases hm : asMap v with
        | none => rw [hm] at hget; cases hget
        | some m =>
          rw [hm] at hget
          simp only at hget
          cases hl : mapLoad (ch :: cs) m with
          | none => rw [hl] at hget; cases hget
          | some val =>
            rw [hl] at hget
            simp only at hget
            have happ : appendLoop nv v ((ch :: cs) :: rest) =
                if rest.isEmpty then
                  match asSlice val with
                  | none => .panic .typeAssertion
                  | some ys => .ok (.map (mapStore (ch :: cs) (.slice (ys ++ [nv])) m))
                else
                  (appendLoop nv val rest).map fun v2 => .map (mapStore (ch :: cs) v2 m) := by
              simp only [appendLoop, hch, if_false, hm, hl]
              try rfl
            have hget2 : ∀ r2 : Val,
                getLoop (.map (mapStore (ch :: cs) r2 m)) ((ch :: cs) :: rest)
                  = getLoop r2 rest := by
              intro r2
              simp only [getLoop, hch, if_false, asMap_map, mapLoad_mapStore_same]
            cases hrest : rest with
            | nil =>
              subst hrest
              simp only [getLoop, Res.ok.injEq] at hget
              subst hget
              refine ⟨.map (mapStore (ch :: cs) (.slice (xs ++ [nv])) m), ?_, ?_,
                Or.inl ⟨_, rfl, by simp [hm]⟩⟩
              · rw [happ]
                simp only [List.isEmpty_nil, if_true, harr]
              · rw [hget2]
                simp only [getLoop]
            | cons n2 r2 =>
              obtain ⟨r, hr1, hr2, _⟩ := ih val arr (by simp [hrest]) hget harr
              refine ⟨.map (mapStore (ch :: cs) r m), ?_, ?_, Or.inl ⟨_, rfl, by simp [hm]⟩⟩
              · rw [← hrest, happ, hr1]
                simp only [hrest, List.isEmpty_cons, Bool.false_eq_true, if_false, Res.map]
              · rw [← hrest, hget2]
                exact hr2

theorem mapStore_append_fresh (k : Str) (v : Val) (m : List (Str × Val))
    (h : ∀ kv ∈ m, kv.1 ≠ k) : mapStore k v m = m ++ [(k, v)] := by
  induction m with
  | nil => rfl
  | cons kv rest ih =>
    obtain ⟨k2, v2⟩ := kv
    have hk : k2 ≠ k := h (k2, v2) (List.mem_cons_self _ _)
    simp [mapStore, hk, ih (fun x hx => h x (List.mem_cons_of_mem _ hx))]

theorem structEncoder_distinct (fields : List (FieldInfo × Val)) :
    ∀ (nvs : List Val) (m : List (Str × Val)),
      (∀ f ∈ fields, f.1.exported = true) →
      List.Forall₂ (fun f nv => valueEncoder f.2 = .ok nv) fields nvs →
      (fields.map fun f => fieldKey f.1).Nodup →
      (∀ kv ∈ m, ∀ f ∈ fields, kv.1 ≠ fieldKey f.1) →
      structEncoder fields m
        = .ok (m ++ List.zipWith (fun f nv => (fieldKey f.1, nv)) fields nvs) := by
  induction fields with
  | nil =>
    intro nvs m _ hn _ _
    cases hn
    simp [structEncoder]
  | cons f rest ih =>
    intro nvs m hexp hn hnd hfresh
    obtain ⟨field, fv⟩ := f
    cases hn with
    | cons hhead htail =>
      rename_i nv nvs'
      have he : field.exported = true := hexp (field, fv) (List.mem_cons_self _ _)
      simp only at hhead
      simp only [List.map_cons, List.nodup_cons, List.mem_map, not_exists, not_and] at hnd
      have hstore : mapStore (fieldKey field) nv m = m ++ [(fieldKey field, nv)] :=
        mapStore_append_fresh _ _ _ (fun kv hkv => hfresh kv hkv (field, fv) (List.mem_cons_self _ _))
      have hfresh' : ∀ kv ∈ m ++ [(fieldKey field, nv)], ∀ g ∈ rest, kv.1 ≠ fieldKey g.1 := by
        intro kv hkv g hg
        rcases List.mem_append.1 hkv with h1 | h1
        · exact hfresh kv h1 g (List.mem_cons_of_mem _ hg)
        · simp only [List.mem_singleton] at h1
          subst h1
          exact fun heq => hnd.1 g hg heq.symm
      have ih' := ih nvs' (m ++ [(fieldKey field, nv)])
        (fun g hg => hexp g (List.mem_cons_of_mem _ hg)) htail hnd.2 hfresh'
      have hstep : structEncoder ((field, fv) :: rest) m
          = structEncoder rest (mapStore (fieldKey field) nv m) := by
        rw [structEncoder]
        simp only [he, Bool.true_eq_false, if_false, hhead, Res.bind]
        unfold fieldKey
        split <;> rfl
      rw [hstep, hstore, ih']
      simp [List.zipWith]

theorem arrayEncoder_of_forall₂ (xs nvs : List Val)
    (h : List.Forall₂ (fun x nv => valueEncoder x = .ok nv) xs nvs) :
    arrayEncoder xs = .ok nvs := by
  induction h with
  | nil => rfl
  | cons hx _ ih => simp [arrayEncoder, hx, ih, Res.bind, Res.map]

theorem arrayLoop_of_forall₂ (args nvs : List Val)
    (h : List.Forall₂ (fun x nv => valueEncoder x = .ok nv) args nvs) :
    ∀ a : Option (List Val),
      arrayLoop args a = .ok (if args.isEmpty then a else some (a.getD [] ++ nvs)) := by
  induction h with
  | nil => intro a; rfl
  | cons hx htail ih =>
    intro a
    rename_i x nv xs nvs'
    simp only [arrayLoop, hx, Res.bind, ih]
    cases htail <;> simp

/-- Normalizing collections: a collection whose type name does not contain
`EasyJSON` and whose elements the normalizer accepts normalizes to the array of
the normalized elements, in order; `Array` on such arguments builds a document
in which `[i]` reads the `i`-th normalized argument. -/
theorem collection_normalizes_elementwise (ty : Str) (isArray : Bool) (xs nvs : List Val)
    (hty : mentionsEasyJSON ty = false)
    (h : List.Forall₂ (fun x nv => valueEncoder x = .ok nv) xs nvs) :
    valueEncoder (.seq ty isArray xs) = .ok (.slice nvs) ∧
    valueEncoder (.slice xs) = .ok (.slice nvs) ∧
    nvs.length = xs.length ∧
    (∀ (ds : Str) (doc : EasyJSON), idxOK ds = true → Array xs = .ok doc →
      idxPos ds < nvs.length → Get doc (Token.text (.Index ds)) = .ok (nvs.getD (idxPos ds) .null)) := by
  have ha := arrayEncoder_of_forall₂ xs nvs h
  refine ⟨?_, ?_, (List.Forall₂.length_eq h).symm, ?_⟩
  · rw [valueEncoder]; simp [hty, ha, Res.map]
  · rw [valueEncoder]; simp [ha, Res.map]
  · intro ds doc hds hdoc hlt
    have hloop := arrayLoop_of_forall₂ xs nvs h none
    have hne : xs.isEmpty = false := by
      cases h with
      | nil => simp at hlt
      | cons _ _ => rfl
    simp only [Array, hloop, hne, Bool.false_eq_true, if_false, Res.map, Option.getD_none,
      List.nil_append, Res.ok.injEq] at hdoc
    subst hdoc
    have hlast : (('[' :: ds) ++ [']']).getLast? = some ']' := List.getLast?_concat _
    have hwf : pathWF [⟨[], [ds]⟩] = true := by
      rw [pathWF_iff]
      refine ⟨by simp, ?_, ?_⟩
      · intro seg hseg
        simp only [List.mem_singleton] at hseg
        subst hseg
        rw [Segment.wf_iff]
        exact ⟨by simp [nameOK], by simpa using hds, Or.inr (by simp)⟩
      · simp only [renderPath, Segment.render, renderIdxs, List.nil_append, List.append_nil,
          noOuterSpace, Bool.and_eq_true]
        rw [show ('[' :: ds ++ [']']) = (('[' :: ds) ++ [']']) from rfl, hlast]
        exact ⟨by simp [isSpace], by decide⟩
    have hparse := parsePath_renderPath [⟨[], [ds]⟩] hwf
    have hr : renderPath [⟨[], [ds]⟩] = Token.text (.Index ds) := by
      simp [renderPath, Segment.render, renderIdxs, Token.text]
    have ht : pathTokens [⟨[], [ds]⟩] = [Token.Index ds] := by
      simp [pathTokens, Segment.tokens]
    rw [hr, ht] at hparse
    simp only [Get, hparse, Res.bind, List.map_cons, List.map_nil]
    rw [getLoop_index ds hds]
    simp [rootVal, JSON_TYPE_ARRAY, JSON_TYPE_OBJECT, sliceVal, asSlice, not_le.2 hlt,
      List.getElem?_eq_getElem hlt, getLoop, List.getD_eq_getElem?_getD]

theorem scanJSONType_values (text : Str) :
    scanJSONType text = JSON_TYPE_INVALID ∨ scanJSONType text = JSON_TYPE_OBJECT ∨
      scanJSONType text = JSON_TYPE_ARRAY := by
  induction text with
  | nil => left; rfl
  | cons c rest ih =>
    simp only [scanJSONType]
    split
    · right; left; rfl
    · split
      · right; right; rfl
      · exact ih

theorem scanJSONType_no_bracket (text : Str) (h : ∀ c ∈ text, c ≠ '{' ∧ c ≠ '[') :
    scanJSONType text = JSON_TYPE_INVALID := by
  induction text with
  | nil => rfl
  | cons c rest ih =>
    have hc := h c (List.mem_cons_self _ _)
    simp only [scanJSONType, hc.1, hc.2, if_false]
    exact ih (fun d hd => h d (List.mem_cons_of_mem _ hd))

/-- What `Parse` does guarantee: a text without `{` and `[` is refused with
`ErrInvalidJSONString`, an error of the decoder is handed on, and a document
that is returned has an object or an array as its root, as its type says. -/
theorem Parse_guarantees (decode : Str → Except Str Val) (text : Str) :
    ((∀ c ∈ text, c ≠ '{' ∧ c ≠ '[') → Parse decode text = .err .ErrInvalidJSONString) ∧
    (∀ msg, scanJSONType text ≠ JSON_TYPE_INVALID → decode text = .error msg →
      Parse decode text = .decodeErr msg) ∧
    (∀ doc, Parse decode text = .ok doc →
      (doc.jsonType = JSON_TYPE_OBJECT ∧ ∃ m, decode text = .ok (mapVal m) ∧ doc.m = m) ∨
      (doc.jsonType = JSON_TYPE_ARRAY ∧ ∃ a, decode text = .ok (sliceVal a) ∧ doc.a = a)) := by
  refine ⟨?_, ?_, ?_⟩
  · intro h
    simp [Parse, scanJSONType_no_bracket text h]
  · intro msg hne hdec
    simp [Parse, hne, hdec]
  · intro doc hdoc
    unfold Parse at hdoc
    split at hdoc
    · cases hdoc
    · rename_i hne
      split at hdoc
      · cases hdoc
      · rename_i data hdec
        split at hdoc
        · rename_i hobj
          left
          split at hdoc
          · injection hdoc with hd; subst hd
            exact ⟨hobj, some _, hdec, rfl⟩
          · injection hdoc with hd; subst hd
            exact ⟨hobj, none, hdec, rfl⟩
          · cases hdoc
        · rename_i hobj
          right
          have harr : scanJSONType text = JSON_TYPE_ARRAY := by
            rcases scanJSONType_values text with h | h | h
            · exact absurd h hne
            · exact absurd h hobj
            · exact h
          split at hdoc
          · injection hdoc with hd; subst hd
            exact ⟨harr, some _, hdec, rfl⟩
          · injection hdoc with hd; subst hd
            exact ⟨harr, none, hdec, rfl⟩
          · cases hdoc

theorem bracketOK_iff (t : Str) :
    bracketOK t = true ↔ ∀ c ∈ t, c ≠ '.' ∧ c ≠ ']' := by
  simp [bracketOK]

theorem Segment.wfLoose_iff (seg : Segment) :
    seg.wfLoose = true ↔ nameOK seg.name = true ∧ (∀ ds ∈ seg.idxs, bracketOK ds = true) ∧
      (seg.name ≠ [] ∨ seg.idxs ≠ []) := by
  simp [Segment.wfLoose, and_assoc]

theorem pathWFLoose_iff (segs : List Segment) :
    pathWFLoose segs = true ↔ segs ≠ [] ∧ (∀ seg ∈ segs, seg.wfLoose = true) ∧
      noOuterSpace (renderPath segs) = true := by
  simp [pathWFLoose, and_assoc]

theorem renderIdxs_no_dot_loose (idxs : List Str) (h : ∀ ds ∈ idxs, bracketOK ds = true) :
    ∀ c ∈ renderIdxs idxs, c ≠ '.' := by
  induction idxs with
  | nil => simp [renderIdxs]
  | cons ds rest ih =>
    intro c hc
    have hds := (bracketOK_iff ds).1 (h ds (List.mem_cons_self _ _))
    simp only [renderIdxs, List.mem_cons, List.mem_append] at hc
    rcases hc with (rfl | hc) | rfl | hc
    · decide
    · exact (hds c hc).1
    · decide
    · exact ih (fun d hd => h d (List.mem_cons_of_mem _ hd)) c hc

theorem Segment.render_no_dot_loose (seg : Segment) (h : seg.wfLoose = true) :
    ∀ c ∈ seg.render, c ≠ '.' := by
  rw [Segment.wfLoose_iff] at h
  intro c hc
  simp only [Segment.render, List.mem_append] at hc
  rcases hc with hc | hc
  · exact ((nameOK_iff _).1 h.1 c hc).1
  · exact renderIdxs_no_dot_loose _ h.2.1 c hc

theorem Split_renderPath_loose (segs : List Segment) (hne : segs ≠ [])
    (h : ∀ seg ∈ segs, seg.wfLoose = true) :
    Split (renderPath segs) = segs.map Segment.render := by
  induction segs with
  | nil => exact absurd rfl hne
  | cons seg rest ih =>
    cases rest with
    | nil =>
      simp only [renderPath, List.map]
      exact Split_no_dot _ (Segment.render_no_dot_loose seg (h seg (List.mem_cons_self _ _)))
    | cons seg2 rest2 =>
      simp only [renderPath, List.map] at ih ⊢
      rw [Split_append_dot _ _ (Segment.render_no_dot_loose seg (h seg (List.mem_cons_self _ _)))]
      rw [ih (by simp) (fun s hs => h s (List.mem_cons_of_mem _ hs))]

theorem scanSnippet_idxs_loose (idxs : List Str) (hidx : ∀ ds ∈ idxs, bracketOK ds = true) :
    ∀ (ds acc : Str), (∀ c ∈ ds, c ≠ ']') →
      scanSnippet '[' acc (ds ++ ']' :: renderIdxs idxs)
        = .ok ((acc ++ ds ++ [']']) :: idxs.map (fun d => Token.text (.Index d))) := by
  induction idxs with
  | nil =>
    intro ds
    induction ds with
    | nil => intro acc _; simp [renderIdxs, scanSnippet]
    | cons c ds' ih =>
      intro acc hds
      have hc : c ≠ ']' := hds c (List.mem_cons_self _ _)
      have ih' := ih (acc ++ [c]) (fun d hd => hds d (List.mem_cons_of_mem _ hd))
      cases hrem : ds' ++ ']' :: renderIdxs [] with
      | nil => simp at hrem
      | cons b r =>
        rw [hrem] at ih'
        simp only [List.cons_append, hrem]
        rw [scanSnippet]
        simp [hc, ih']
  | cons d rest ihr =>
    have hd := (bracketOK_iff d).1 (hidx d (List.mem_cons_self _ _))
    have hrest := ihr (fun x hx => hidx x (List.mem_cons_of_mem _ hx)) d ['[']
      (fun c hc => (hd c hc).2)
    intro ds
    induction ds with
    | nil =>
      intro acc _
      cases hrem : d ++ ']' :: renderIdxs rest with
      | nil => simp at hrem
      | cons b r =>
        rw [hrem] at hrest
        simp only [renderIdxs, List.nil_append, List.cons_append, hrem]
        rw [scanSnippet]
        simp [hrest, consName, Res.map, Token.text]
    | cons c ds' ih =>
      intro acc hds
      have hc : c ≠ ']' := hds c (List.mem_cons_self _ _)
      have ih' := ih (acc ++ [c]) (fun d hd => hds d (List.mem_cons_of_mem _ hd))
      cases hrem : ds' ++ ']' :: renderIdxs (d :: rest) with
      | nil => simp at hrem
      | cons b r =>
        rw [hrem] at ih'
        simp only [List.cons_append, hrem]
        rw [scanSnippet]
        simp [hc, ih']

theorem scanSnippet_field_loose (b : Char) (hb : b ≠ '[') (idxs : List Str)
    (hidx : ∀ ds ∈ idxs, bracketOK ds = true) :
    ∀ (cs acc : Str), (∀ c ∈ cs, c ≠ '[') → (cs ≠ [] ∨ idxs ≠ []) →
      scanSnippet b acc (cs ++ renderIdxs idxs)
        = .ok ((acc ++ cs) :: idxs.map (fun d => Token.text (.Index d))) := by
  intro cs
  induction cs with
  | nil =>
    intro acc _ hne
    cases idxs with
    | nil => simp at hne
    | cons d rest =>
      have hd := (bracketOK_iff d).1 (hidx d (List.mem_cons_self _ _))
      have hrest := scanSnippet_idxs_loose rest (fun x hx => hidx x (List.mem_cons_of_mem _ hx)) d ['[']
        (fun c hc => (hd c hc).2)
      cases hrem : d ++ ']' :: renderIdxs rest with
      | nil => simp at hrem
      | cons b' r =>
        rw [hrem] at hrest
        simp only [renderIdxs, List.nil_append, List.cons_append, hrem]
        rw [scanSnippet]
        simp [hb, hrest, consName, Res.map, Token.text]
  | cons c cs' ih =>
    intro acc hcs _
    have hc : c ≠ '[' := hcs c (List.mem_cons_self _ _)
    cases hrem : cs' ++ renderIdxs idxs with
    | nil =>
      have h1 : cs' = [] := (List.append_eq_nil.1 hrem).1
      have h2 : idxs = [] := by
        cases idxs with
        | nil => rfl
        | cons d r => simp [renderIdxs] at hrem
      subst h1; subst h2
      simp [renderIdxs, scanSnippet, hb]
    | cons b' r =>
      have hne' : cs' ≠ [] ∨ idxs ≠ [] := by
        by_contra hcon
        push_neg at hcon
        rw [hcon.1, hcon.2] at hrem
        simp [renderIdxs] at hrem
      have ih' := ih (acc ++ [c]) (fun d hd => hcs d (List.mem_cons_of_mem _ hd)) hne'
      rw [hrem] at ih'
      simp only [List.cons_append, hrem]
      rw [scanSnippet]
      simp [hb, hc, ih']

theorem scanSnippet_segment_loose (seg : Segment) (h : seg.wfLoose = true) :
    ∃ x rest, seg.render = x :: rest ∧
      scanSnippet x [] seg.render = .ok (seg.tokens.map Token.text) := by
  obtain ⟨name, idxs⟩ := seg
  rw [Segment.wfLoose_iff] at h
  obtain ⟨hn, hi, hne⟩ := h
  simp only at hn hi hne
  cases name with
  | nil =>
    cases idxs with
    | nil => simp at hne
    | cons d rest =>
      have hd := (bracketOK_iff d).1 (hi d (List.mem_cons_self _ _))
      refine ⟨'[', d ++ ']' :: renderIdxs rest, by simp [Segment.render, renderIdxs], ?_⟩
      have := scanSnippet_idxs_loose rest (fun x hx => hi x (List.mem_cons_of_mem _ hx)) ('[' :: d) []
        (by
          intro c hc
          rcases List.mem_cons.1 hc with rfl | hc
          · decide
          · exact (hd c hc).2)
      simpa [Segment.render, renderIdxs, Segment.tokens, Token.text] using this
  | cons c cs =>
    have hc := ((nameOK_iff _).1 hn c (List.mem_cons_self _ _)).2
    refine ⟨c, cs ++ renderIdxs idxs, by simp [Segment.render], ?_⟩
    have := scanSnippet_field_loose c hc idxs hi (c :: cs) []
      (fun x hx => ((nameOK_iff _).1 hn x hx).2) (Or.inl (by simp))
    simpa [Segment.render, Segment.tokens, Token.text] using this

theorem parseSnippets_render_loose (segs : List Segment) (h : ∀ seg ∈ segs, seg.wfLoose = true) :
    parseSnippets (segs.map Segment.render) = .ok ((pathTokens segs).map Token.text) := by
  induction segs with
  | nil => rfl
  | cons seg rest ih =>
    obtain ⟨x, r, hx, hscan⟩ := scanSnippet_segment_loose seg (h seg (List.mem_cons_self _ _))
    have ih' := ih (fun s hs => h s (List.mem_cons_of_mem _ hs))
    simp only [List.map_cons, parseSnippets]
    rw [hx] at hscan ⊢
    simp only [hscan, ih', Res.bind, Res.map, pathTokens, List.map_append]

theorem parsePath_renderPath_loose (segs : List Segment) (h : pathWFLoose segs = true) :
    parsePath (renderPath segs) = .ok ((pathTokens segs).map Token.text) := by
  rw [pathWFLoose_iff] at h
  unfold parsePath
  rw [TrimSpace_of_noOuterSpace _ h.2.2, Split_renderPath_loose segs h.1 h.2.1]
  exact parseSnippets_render_loose segs h.2.1

/-! ## Lemmas on the traversals -/

theorem Atoi_of_not_numeral (t : Str) (h : isNumeral t = false) : Atoi t = 0 := by
  cases t with
  | nil => simp [Atoi]
  | cons c r =>
    by_cases hs : c = '-' ∨ c = '+'
    · simp only [isNumeral, hs, if_true] at h
      have : (r.isEmpty || !r.all isDigit) = true := by
        cases hr : r.isEmpty <;> simp_all
      simp only [Atoi, hs, if_true, this, if_true]
    · simp only [isNumeral, hs, if_false] at h
      have : ((c :: r).isEmpty || !(c :: r).all isDigit) = true := by
        simp [h]
      simp only [Atoi, hs, if_false, this, if_true]

theorem Atoi_zeroText (t : Str) : Atoi (zeroText t) = Atoi t := by
  unfold zeroText
  by_cases h : isNumeral t = true
  · simp [h]
  · have h0 : isNumeral t = false := by simpa using h
    simp only [h0, Bool.false_eq_true, if_false, Atoi_of_not_numeral t h0]
    rfl

theorem getLoop_cons_congr (name : Str) (r1 r2 : List Str)
    (hr : ∀ w, getLoop w r1 = getLoop w r2) (v : Val) :
    getLoop v (name :: r1) = getLoop v (name :: r2) := by
  cases name with
  | nil => simp [getLoop]
  | cons ch cs => simp only [getLoop, hr]

theorem getLoop_bracket_congr (t1 t2 : Str) (h : Atoi t1 = Atoi t2) (r1 r2 : List Str)
    (hr : ∀ w, getLoop w r1 = getLoop w r2) (v : Val) :
    getLoop v (Token.text (.Index t1) :: r1) = getLoop v (Token.text (.Index t2) :: r2) := by
  have hlen1 : ¬ (('[' :: (t1 ++ [']'])).length < 2) := by simp
  have hlen2 : ¬ (('[' :: (t2 ++ [']'])).length < 2) := by simp
  have hs1 : stripBrackets ('[' :: (t1 ++ [']'])) = t1 := stripBrackets_text t1
  have hs2 : stripBrackets ('[' :: (t2 ++ [']'])) = t2 := stripBrackets_text t2
  show getLoop v (('[' :: (t1 ++ [']'])) :: r1) = getLoop v (('[' :: (t2 ++ [']'])) :: r2)
  simp only [getLoop, if_true, hlen1, hlen2, if_false, hs1, hs2, h, hr]

theorem setLoop_cons_congr (nv : Val) (name : Str) (r1 r2 : List Str)
    (he : r1.isEmpty = r2.isEmpty)
    (hr : ∀ w, setLoop nv w r1 = setLoop nv w r2) (v : Val) :
    setLoop nv v (name :: r1) = setLoop nv v (name :: r2) := by
  cases name with
  | nil => simp [setLoop]
  | cons ch cs => simp only [setLoop, hr, he]

theorem setLoop_bracket_congr (nv : Val) (t1 t2 : Str) (h : Atoi t1 = Atoi t2)
    (r1 r2 : List Str) (he : r1.isEmpty = r2.isEmpty)
    (hr : ∀ w, setLoop nv w r1 = setLoop nv w r2) (v : Val) :
    setLoop nv v (Token.text (.Index t1) :: r1)
      = setLoop nv v (Token.text (.Index t2) :: r2) := by
  have hlen1 : ¬ (('[' :: (t1 ++ [']'])).length < 2) := by simp
  have hlen2 : ¬ (('[' :: (t2 ++ [']'])).length < 2) := by simp
  have hs1 : stripBrackets ('[' :: (t1 ++ [']'])) = t1 := stripBrackets_text t1
  have hs2 : stripBrackets ('[' :: (t2 ++ [']'])) = t2 := stripBrackets_text t2
  show setLoop nv v (('[' :: (t1 ++ [']'])) :: r1) = setLoop nv v (('[' :: (t2 ++ [']'])) :: r2)
  simp only [setLoop, if_true, hlen1, hlen2, if_false, hs1, hs2, h, hr, he]

theorem appendLoop_cons_congr (nv : Val) (name : Str) (r1 r2 : List Str)
    (he : r1.isEmpty = r2.isEmpty)
    (hr : ∀ w, appendLoop nv w r1 = appendLoop nv w r2) (v : Val) :
    appendLoop nv v (name :: r1) = appendLoop nv v (name :: r2) := by
  cases name with
  | nil => simp [appendLoop]
  | cons ch cs => simp only [appendLoop, hr, he]

theorem appendLoop_bracket_congr (nv : Val) (t1 t2 : Str) (h : Atoi t1 = Atoi t2)
    (r1 r2 : List Str) (he : r1.isEmpty = r2.isEmpty)
    (hr : ∀ w, appendLoop nv w r1 = appendLoop nv w r2) (v : Val) :
    appendLoop nv v (Token.text (.Index t1) :: r1)
      = appendLoop nv v (Token.text (.Index t2) :: r2) := by
  have hlen1 : ¬ (('[' :: (t1 ++ [']'])).length < 2) := by simp
  have hlen2 : ¬ (('[' :: (t2 ++ [']'])).length < 2) := by simp
  have hs1 : stripBrackets ('[' :: (t1 ++ [']'])) = t1 := stripBrackets_text t1
  have hs2 : stripBrackets ('[' :: (t2 ++ [']'])) = t2 := stripBrackets_text t2
  show appendLoop nv v (('[' :: (t1 ++ [']'])) :: r1)
    = appendLoop nv v (('[' :: (t2 ++ [']'])) :: r2)
  simp only [appendLoop, if_true, hlen1, hlen2, if_false, hs1, hs2, h, hr, he]

theorem loops_zeroed (nv : Val) (toks : List Token) :
    (∀ v, getLoop v (toks.map Token.text) = getLoop v ((toks.map Token.zeroed).map Token.text)) ∧
    (∀ v, setLoop nv v (toks.map Token.text)
      = setLoop nv v ((toks.map Token.zeroed).map Token.text)) ∧
    (∀ v, appendLoop nv v (toks.map Token.text)
      = appendLoop nv v ((toks.map Token.zeroed).map Token.text)) := by
  induction toks with
  | nil => exact ⟨fun _ => rfl, fun _ => rfl, fun _ => rfl⟩
  | cons t rest ih =>
    obtain ⟨ihg, ihs, iha⟩ := ih
    have he : (rest.map Token.text).isEmpty
        = ((rest.map Token.zeroed).map Token.text).isEmpty := by
      cases rest <;> rfl
    cases t with
    | Field name =>
      exact ⟨fun v => getLoop_cons_congr _ _ _ ihg v,
        fun v => setLoop_cons_congr nv _ _ _ he ihs v,
        fun v => appendLoop_cons_congr nv _ _ _ he iha v⟩
    | Index t =>
      have hat := (Atoi_zeroText t).symm
      exact ⟨fun v => getLoop_bracket_congr _ _ hat _ _ ihg v,
        fun v => setLoop_bracket_congr nv _ _ hat _ _ he ihs v,
        fun v => appendLoop_bracket_congr nv _ _ hat _ _ he iha v⟩

theorem pathTokens_zeroed (segs : List Segment) :
    pathTokens (segs.map Segment.zeroed) = (pathTokens segs).map Token.zeroed := by
  induction segs with
  | nil => rfl
  | cons seg rest ih =>
    simp only [List.map_cons, pathTokens, ih, List.map_append]
    congr 1
    simp only [Segment.tokens, Segment.zeroed, List.map_append, List.map_map]
    congr 1
    split <;> rfl

theorem bracketOK_zeroText (t : Str) (h : bracketOK t = true) : bracketOK (zeroText t) = true := by
  unfold zeroText
  split
  · exact h
  · decide

theorem Segment.zeroed_wfLoose (seg : Segment) (h : seg.wfLoose = true) :
    seg.zeroed.wfLoose = true := by
  rw [Segment.wfLoose_iff] at h ⊢
  obtain ⟨hn, hi, hne⟩ := h
  refine ⟨hn, ?_, ?_⟩
  · intro ds hds
    simp only [Segment.zeroed, List.mem_map] at hds
    obtain ⟨t, ht, rfl⟩ := hds
    exact bracketOK_zeroText t (hi t ht)
  · rcases hne with h1 | h1
    · exact Or.inl h1
    · right
      simp only [Segment.zeroed]
      intro hm
      exact h1 (List.map_eq_nil_iff.1 hm)

theorem getLast?_cons_of_ne_nil {α : Type} (c : α) (x : List α) (h : x ≠ []) :
    (c :: x).getLast? = x.getLast? := by
  cases x with
  | nil => exact absurd rfl h
  | cons b l => rfl

theorem renderIdxs_ends (idxs : List Str) (hne : idxs ≠ []) :
    (renderIdxs idxs).head? = some '[' ∧ (renderIdxs idxs).getLast? = some ']' := by
  induction idxs with
  | nil => exact absurd rfl hne
  | cons t rest ih =>
    refine ⟨by simp [renderIdxs], ?_⟩
    cases rest with
    | nil =>
      simp only [renderIdxs, List.append_nil]
      rw [show ('[' :: t ++ [']']) = (('[' :: t) ++ [']']) from rfl]
      exact List.getLast?_concat _
    | cons t2 r2 =>
      have h2 := (ih (by simp)).2
      rw [show renderIdxs (t :: t2 :: r2) = ('[' :: t ++ [']']) ++ renderIdxs (t2 :: r2) by
        simp [renderIdxs]]
      rw [List.getLast?_append, h2]
      rfl

theorem Segment.render_ends_zeroed (seg : Segment) (h : seg.wfLoose = true) :
    seg.render ≠ [] ∧ seg.zeroed.render ≠ [] ∧
    seg.zeroed.render.head? = seg.render.head? ∧
    seg.zeroed.render.getLast? = seg.render.getLast? := by
  obtain ⟨name, idxs⟩ := seg
  rw [Segment.wfLoose_iff] at h
  obtain ⟨_, _, hne⟩ := h
  simp only at hne
  simp only [Segment.render, Segment.zeroed]
  cases idxs with
  | nil =>
    have hn : name ≠ [] := by
      rcases hne with h1 | h1
      · exact h1
      · exact absurd rfl h1
    simp [renderIdxs, hn]
  | cons t rest =>
    have e1 := renderIdxs_ends (t :: rest) (by simp)
    have e2 := renderIdxs_ends ((t :: rest).map zeroText) (by simp)
    have n1 : renderIdxs (t :: rest) ≠ [] := by
      intro hx; rw [hx] at e1; simp at e1
    have n2 : renderIdxs ((t :: rest).map zeroText) ≠ [] := by
      intro hx; rw [hx] at e2; simp at e2
    refine ⟨fun hx => n1 (List.append_eq_nil.1 hx).2,
      fun hx => n2 (List.append_eq_nil.1 hx).2, ?_, ?_⟩
    · cases name with
      | nil =>
        simp only [List.nil_append]
        rw [e1.1, e2.1]
      | cons c cs => rfl
    · rw [List.getLast?_append, List.getLast?_append, e1.2, e2.2]

theorem renderPath_ends_zeroed (segs : List Segment) (h : ∀ seg ∈ segs, seg.wfLoose = true) :
    (renderPath (segs.map Segment.zeroed)).head? = (renderPath segs).head? ∧
    (renderPath (segs.map Segment.zeroed)).getLast? = (renderPath segs).getLast? ∧
    (segs ≠ [] → renderPath segs ≠ [] ∧ renderPath (segs.map Segment.zeroed) ≠ []) := by
  induction segs with
  | nil => exact ⟨rfl, rfl, fun hx => absurd rfl hx⟩
  | cons seg rest ih =>
    obtain ⟨r1, r2, rh, rl⟩ := Segment.render_ends_zeroed seg (h seg (List.mem_cons_self _ _))
    obtain ⟨ih1, ih2, ih3⟩ := ih (fun s hs => h s (List.mem_cons_of_mem _ hs))
    cases rest with
    | nil =>
      simp only [List.map_cons, List.map_nil, renderPath]
      exact ⟨rh, rl, fun _ => ⟨r1, r2⟩⟩
    | cons s2 rest2 =>
      obtain ⟨p1, p2⟩ := ih3 (by simp)
      simp only [List.map_cons, renderPath] at ih1 ih2 p1 p2 ⊢
      refine ⟨?_, ?_, fun _ => ⟨by simp [r1], by simp [r2]⟩⟩
      · rw [List.head?_append_of_ne_nil _ r2, List.head?_append_of_ne_nil _ r1, rh]
      · rw [List.getLast?_append, List.getLast?_append, getLast?_cons_of_ne_nil _ _ p2,
          getLast?_cons_of_ne_nil _ _ p1, ih2]
        have hsome : ∃ c, (renderPath (s2 :: rest2)).getLast? = some c := by
          cases hx : (renderPath (s2 :: rest2)).getLast? with
          | none => exact absurd (List.getLast?_eq_none_iff.1 hx) p1
          | some c => exact ⟨c, rfl⟩
        obtain ⟨c, hc⟩ := hsome
        rw [hc]
        rfl

theorem pathWFLoose_zeroed (segs : List Segment) (h : pathWFLoose segs = true) :
    pathWFLoose (segs.map Segment.zeroed) = true := by
  rw [pathWFLoose_iff] at h ⊢
  obtain ⟨hne, hwf, hsp⟩ := h
  obtain ⟨e1, e2, _⟩ := renderPath_ends_zeroed segs hwf
  refine ⟨fun hm => hne (List.map_eq_nil_iff.1 hm), ?_, ?_⟩
  · intro seg hseg
    obtain ⟨s, hs, rfl⟩ := List.mem_map.1 hseg
    exact Segment.zeroed_wfLoose s (hwf s hs)
  · unfold noOuterSpace at hsp ⊢
    rw [e1, e2]
    exact hsp

theorem renderPath_ne_nil_loose (segs : List Segment) (h : pathWFLoose segs = true) :
    renderPath segs ≠ [] := by
  obtain ⟨hne, hwf, _⟩ := (pathWFLoose_iff segs).1 h
  exact ((renderPath_ends_zeroed segs hwf).2.2 hne).1

theorem Res.map_ne_err {α β : Type} (f : α → β) (r : Res α) (h : ∀ e, r ≠ .err e) :
    ∀ e, r.map f ≠ .err e := by
  intro e
  cases r with
  | ok a => simp [Res.map]
  | err e2 => exact absurd rfl (h e2)
  | panic p => simp [Res.map]

mutual
theorem valueEncoder_ne_err : ∀ (v : Val) (e : Err), valueEncoder v ≠ .err e
  | .null, e => by simp [valueEncoder]
  | .easyJSON jsonType m a, e => by
    rw [valueEncoder]; split <;> simp
  | .nilEasyJSON, e => by simp [valueEncoder]
  | .ptr ty target, e => by
    cases target with
    | struct sty fields =>
      rw [valueEncoder]
      split
      · simp
      · exact Res.map_ne_err _ _ (structEncoder_ne_err fields []) e
    | seq sty isArray xs =>
      rw [valueEncoder]
      split
      · simp
      · exact Res.map_ne_err _ _ (arrayEncoder_ne_err xs) e
    | slice xs =>
      rw [valueEncoder]
      split
      · simp
      · exact Res.map_ne_err _ _ (arrayEncoder_ne_err xs) e
    | _ => simp only [valueEncoder]; split <;> simp
  | .nilPtr ty, e => by
    rw [valueEncoder]; split <;> simp
  | .struct ty fields, e => by
    rw [valueEncoder]
    split
    · simp
    · exact Res.map_ne_err _ _ (structEncoder_ne_err fields []) e
  | .seq ty isArray xs, e => by
    rw [valueEncoder]
    split
    · simp
    · exact Res.map_ne_err _ _ (arrayEncoder_ne_err xs) e
  | .slice xs, e => by
    rw [valueEncoder]
    exact Res.map_ne_err _ _ (arrayEncoder_ne_err xs) e
  | .nilSlice, e => by simp [valueEncoder]
  | .other ty kind id, e => by
    rw [valueEncoder]; split <;> simp
  | .bool b, e => by simp [valueEncoder]
  | .int k n, e => by simp [valueEncoder]
  | .float k bits, e => by simp [valueEncoder]
  | .str s, e => by simp [valueEncoder]
  | .map kvs, e => by simp [valueEncoder]
  | .nilMap, e => by simp [valueEncoder]
theorem arrayEncoder_ne_err : ∀ (xs : List Val) (e : Err), arrayEncoder xs ≠ .err e
  | [], e => by simp [arrayEncoder]
  | x :: rest, e => by
    rw [arrayEncoder]
    cases hx : valueEncoder x with
    | err e2 => exact absurd hx (valueEncoder_ne_err x e2)
    | panic p => simp [Res.bind]
    | ok elem =>
      simp only [Res.bind]
      exact Res.map_ne_err _ _ (arrayEncoder_ne_err rest) e
theorem structEncoder_ne_err : ∀ (fields : List (FieldInfo × Val)) (m : List (Str × Val))
    (e : Err), structEncoder fields m ≠ .err e
  | [], m, e => by simp [structEncoder]
  | (field, fv) :: rest, m, e => by
    rw [structEncoder]
    split
    · simp
    · cases hx : valueEncoder fv with
      | err e2 => exact absurd hx (valueEncoder_ne_err fv e2)
      | panic p => simp [Res.bind]
      | ok fieldValue =>
        simp only [Res.bind]
        split
        · exact structEncoder_ne_err rest _ e
        · exact structEncoder_ne_err rest _ e
end

theorem valueEncoder_ok_or_panic (v : Val) :
    (∃ nv, valueEncoder v = .ok nv) ∨ (∃ f, valueEncoder v = .panic f) := by
  cases h : valueEncoder v with
  | ok nv => exact Or.inl ⟨nv, rfl⟩
  | err e => exact absurd h (valueEncoder_ne_err v e)
  | panic f => exact Or.inr ⟨f, rfl⟩

/-- When the path makes both loops panic for every normalized value, `Set` and
`Append` end in a panic and leave the document as it was, whatever the value. -/
theorem Set_Append_panic_of_loops (easyJSON : EasyJSON) (path : Str) (value : Val)
    (hset : ∀ nv, valueEncoder value = .ok nv → ∃ f, Set easyJSON path value = (easyJSON, .panic f))
    (happ : ∀ nv, valueEncoder value = .ok nv →
      ∃ f, Append easyJSON path value = (easyJSON, .panic f)) :
    (∃ f, Set easyJSON path value = (easyJSON, .panic f)) ∧
    (∃ f, Append easyJSON path value = (easyJSON, .panic f)) := by
  rcases valueEncoder_ok_or_panic value with ⟨nv, hv⟩ | ⟨f, hv⟩
  · exact ⟨hset nv hv, happ nv hv⟩
  · exact ⟨⟨f, by simp [Set, hv]⟩, ⟨f, by simp [Append, hv]⟩⟩

theorem mentionsEasyJSON_star (ty : Str) :
    mentionsEasyJSON ('*' :: ty) = mentionsEasyJSON ty := by
  have h : List.isPrefixOf "EasyJSON".toList ('*' :: ty) = false := by
    simp [List.isPrefixOf]
  simp only [mentionsEasyJSON, containsSub, h, Bool.false_or]

theorem consName_ok_or_panic (name : Str) (r : Res (List Str))
    (h : (∃ names, r = .ok names) ∨ r = .panic .indexOutOfRange) :
    (∃ names, consName name r = .ok names) ∨ consName name r = .panic .indexOutOfRange := by
  rcases h with ⟨names, rfl⟩ | rfl
  · exact Or.inl ⟨_, rfl⟩
  · exact Or.inr rfl

theorem scanSnippet_ok_or_panic_aux (l : Str) :
    (∀ (b : Char) (acc : Str),
      (∃ names, scanSnippet b acc l = .ok names) ∨
        scanSnippet b acc l = .panic .indexOutOfRange) ∧
    (∀ (ch b : Char) (acc : Str),
      (∃ names, scanSnippet b acc (ch :: l) = .ok names) ∨
        scanSnippet b acc (ch :: l) = .panic .indexOutOfRange) := by
  induction l with
  | nil =>
    refine ⟨fun b acc => Or.inr (by simp [scanSnippet]), ?_⟩
    intro ch b acc
    simp only [scanSnippet]
    split
    · split
      · exact Or.inl ⟨_, rfl⟩
      · exact Or.inr rfl
    · exact Or.inl ⟨_, rfl⟩
  | cons c r ih =>
    refine ⟨ih.2 c, ?_⟩
    intro ch b acc
    rw [scanSnippet]
    split
    · split
      · refine consName_ok_or_panic _ _ ?_
        split
        · exact ih.1 _ _
        · exact ih.2 c _ _
      · exact ih.2 c _ _
    · split
      · exact consName_ok_or_panic _ _ (ih.2 c _ _)
      · exact ih.2 c _ _

theorem scanSnippet_ok_or_panic (l : Str) (b : Char) (acc : Str) :
    (∃ names, scanSnippet b acc l = .ok names) ∨
      scanSnippet b acc l = .panic .indexOutOfRange :=
  (scanSnippet_ok_or_panic_aux l).1 b acc

theorem parseSnippets_panic_of_empty (l : List Str) (h : [] ∈ l) :
    parseSnippets l = .panic .indexOutOfRange := by
  induction l with
  | nil => simp at h
  | cons snippet more ih =>
    cases snippet with
    | nil => simp [parseSnippets]
    | cons b rest =>
      have hm : [] ∈ more := by
        rcases List.mem_cons.1 h with h1 | h1
        · exact absurd h1 (by simp)
        · exact h1
      simp only [parseSnippets]
      rcases scanSnippet_ok_or_panic (b :: rest) b [] with ⟨names, hs⟩ | hs
      · simp [hs, Res.bind, ih hm, Res.map]
      · simp [hs, Res.bind]

theorem parsePath_panic_of_empty_segment (path : Str) (h : hasEmptySegment path = true) :
    parsePath path = .panic .indexOutOfRange := by
  unfold hasEmptySegment at h
  rw [List.any_eq_true] at h
  obtain ⟨x, hx, hxe⟩ := h
  have : x = [] := by simpa using hxe
  subst this
  exact parseSnippets_panic_of_empty _ hx

theorem Split_append_dot_any (a b : Str) : Split (a ++ '.' :: b) = Split a ++ Split b := by
  induction a with
  | nil => simp [Split]
  | cons c a2 ih =>
    by_cases hc : c = '.'
    · simp [Split, hc, ih]
    · have hne := Split_ne_nil a2
      cases hs : Split a2 with
      | nil => exact absurd hs hne
      | cons s ss =>
        show Split (c :: (a2 ++ '.' :: b)) = Split (c :: a2) ++ Split b
        simp only [Split, hc, if_false]
        rw [ih, hs]
        rfl

theorem dropWhile_isSpace_append (a b : Str) (c : Char) (hc : isSpace c = false) :
    (a ++ c :: b).dropWhile isSpace = a.dropWhile isSpace ++ c :: b := by
  induction a with
  | nil => simp [List.dropWhile, hc]
  | cons x a2 ih =>
    by_cases hx : isSpace x = true
    · simp [List.dropWhile, hx, ih]
    · simp [List.dropWhile, hx]

theorem TrimSpace_around (a b : Str) (c : Char) (hc : isSpace c = false) :
    TrimSpace (a ++ c :: b) =
      a.dropWhile isSpace ++ c :: (b.reverse.dropWhile isSpace).reverse := by
  unfold TrimSpace
  rw [dropWhile_isSpace_append a b c hc]
  have : (a.dropWhile isSpace ++ c :: b).reverse =
      b.reverse ++ c :: (a.dropWhile isSpace).reverse := by simp
  rw [this, dropWhile_isSpace_append _ _ c hc]
  simp

theorem TrimSpace_all_space (s : Str) (h : s.all isSpace = true) : TrimSpace s = [] := by
  have : s.dropWhile isSpace = [] := by
    induction s with
    | nil => rfl
    | cons x s2 ih =>
      simp only [List.all_cons, Bool.and_eq_true] at h
      simp [List.dropWhile, h.1, ih h.2]
  simp [TrimSpace, this]

/-- The shapes of a path with an empty piece between dots: the empty or
all-blank text, a dot at either end, two dots in a row. -/
theorem hasEmptySegment_of_shape (path : Str)
    (h : path.all isSpace = true ∨ (∃ r, path = '.' :: r) ∨
      (∃ r, path = r ++ ['.']) ∨ (∃ a b, path = a ++ '.' :: '.' :: b)) :
    hasEmptySegment path = true := by
  have hdot : isSpace '.' = false := by decide
  unfold hasEmptySegment
  rw [List.any_eq_true]
  refine ⟨[], ?_, rfl⟩
  rcases h with h | ⟨r, h⟩ | ⟨r, h⟩ | ⟨a, b, h⟩
  · rw [TrimSpace_all_space path h]; simp [Split]
  · have e := TrimSpace_around [] r '.' hdot
    rw [List.nil_append] at e
    rw [h, e]; simp [Split]
  · rw [h, TrimSpace_around r [] '.' hdot, Split_append_dot_any]; simp [Split]
  · have e : a ++ '.' :: '.' :: b = (a ++ ['.']) ++ '.' :: b := by simp
    rw [h, e, TrimSpace_around _ b '.' hdot, dropWhile_isSpace_append a [] '.' hdot,
      List.append_assoc, List.singleton_append, Split_append_dot_any]
    simp [Split]

theorem appendLoop_terminal_not_array (nv : Val) (t : Token) (ht : t.wf = true) (node : Val)
    (hnot : t.targetNotArray node = true) :
    appendLoop nv node [t.text] = .panic .typeAssertion := by
  cases t with
  | Field name =>
    rw [appendLoop_field nv name ht]
    simp only [Token.targetNotArray] at hnot
    cases hm : asMap node with
    | none => rfl
    | some m =>
      simp only [hm] at hnot
      simp only [List.isEmpty_nil, if_true]
      cases hl : mapLoad name m with
      | none => rfl
      | some old =>
        simp only [hl, Option.isNone_iff_eq_none] at hnot
        simp only [hnot]
  | Index ds =>
    rw [appendLoop_index nv ds ht]
    simp only [Token.targetNotArray] at hnot
    cases hs : asSlice node with
    | none => rfl
    | some a =>
      simp only [hs] at hnot
      cases he : a[idxPos ds]? with
      | none => simp [he] at hnot
      | some elem =>
        simp only [he, Option.isNone_iff_eq_none] at hnot
        have hlt : ¬ (a.length ≤ idxPos ds) := by
          intro hle
          rw [List.getElem?_eq_none hle] at he
          exact absurd he (by simp)
        simp only [hlt, if_false, he, List.isEmpty_nil, if_true, hnot]

theorem mapLoadH_mapStoreH_same (name : Str) (x : HVal) (m : List (Str × HVal)) :
    mapLoadH name (mapStoreH name x m) = some x := by
  induction m with
  | nil => simp [mapStoreH, mapLoadH]
  | cons kv rest ih =>
    obtain ⟨k, v⟩ := kv
    by_cases hk : k = name
    · simp [mapStoreH, mapLoadH, hk]
    · simp [mapStoreH, mapLoadH, hk, ih]

/-- C1: on every document and every well-formed path whose tokens all resolve,
`Get` returns, without error, the value reached by following the tokens in
order from the root. -/
theorem get_returns_followed_value (easyJSON : EasyJSON) (segs : List Segment) (v : Val)
    (hwf : pathWF segs = true)
    (hres : follow (rootVal easyJSON) (pathTokens segs) = some v) :
    Get easyJSON (renderPath segs) = .ok v := by
  unfold Get
  rw [parsePath_renderPath segs hwf]
  have := getLoop_append (pathTokens segs) (pathTokens_wf segs hwf) _ v hres []
  simpa [Res.bind, getLoop] using this

/-- Instance of C1: on `{"a":{"b":[{"c":1},{"c":2}]}}` the path `a.b[0].c`
gives `1`. -/
theorem get_returns_followed_value_witness :
    pathWF pathABC = true ∧
      follow (rootVal docNested) (pathTokens pathABC) = some (.int .int 1) ∧
      Get docNested "a.b[0].c".toList = .ok (.int .int 1) :=
  ⟨by decide, by rfl,
    get_returns_followed_value docNested pathABC (.int .int 1) (by decide) (by rfl)⟩

/-- C2, as amended: when the tokens before an `Index` token resolve to an array
and the index is not below its length, `Get` returns `ErrIndexOutOfBounds`, and
so do `Set` and `Append` for a value on which the normalizer returns, the token
being terminal or not; `Set` and `Append` leave the document as it was. -/
theorem index_out_of_bounds_everywhere (easyJSON : EasyJSON) (segs : List Segment)
    (pre post : List Token) (ds : Str) (arr : Val) (a : List Val) (value nv : Val)
    (hwf : pathWF segs = true)
    (htok : pathTokens segs = pre ++ Token.Index ds :: post)
    (hres : follow (rootVal easyJSON) pre = some arr)
    (harr : asSlice arr = some a)
    (hoob : a.length ≤ idxPos ds)
    (hval : valueEncoder value = .ok nv) :
    Get easyJSON (renderPath segs) = .err .ErrIndexOutOfBounds ∧
    Set easyJSON (renderPath segs) value = (easyJSON, .err .ErrIndexOutOfBounds) ∧
    Append easyJSON (renderPath segs) value = (easyJSON, .err .ErrIndexOutOfBounds) := by
  obtain ⟨hpre, ht, _⟩ := wf_of_mem_append htok (pathTokens_wf segs hwf)
  have hparse := parsePath_renderPath segs hwf
  rw [htok, List.map_append, List.map_cons] at hparse
  refine ⟨?_, ?_, ?_⟩
  · simp only [Get, hparse, Res.bind]
    rw [getLoop_append pre hpre _ arr hres, getLoop_index ds ht]
    simp [harr, hoob]
  · simp only [Set, hval, hparse]
    rw [setLoop_append nv pre hpre _ arr hres, setLoop_index nv ds ht]
    simp [harr, hoob, Res.map]
  · simp only [Append, hval, hparse, renderPath_ne_nil segs hwf, if_false]
    rw [appendLoop_append nv pre hpre _ arr hres, appendLoop_index nv ds ht]
    simp [harr, hoob, Res.map]

/-- Instance of C2: on `{"a":[1,2]}` the path `a[5]` is out of bounds. -/
theorem index_out_of_bounds_everywhere_witness :
    Get docA12 "a[5]".toList = .err .ErrIndexOutOfBounds ∧
    Set docA12 "a[5]".toList (.int .int 7) = (docA12, .err .ErrIndexOutOfBounds) ∧
    Append docA12 "a[5]".toList (.int .int 7) = (docA12, .err .ErrIndexOutOfBounds) :=
  index_out_of_bounds_everywhere docA12 pathA5 [.Field "a".toList] [] "5".toList
    (.slice [.int .int 1, .int .int 2]) [.int .int 1, .int .int 2] (.int .int 7) (.int .int 7)
    (by decide) (by rfl) (by rfl) (by rfl) (by decide) (by rfl)

/-- C3: on an object-rooted document that lacks the key `k`, `Get(k)` returns
`ErrFieldNotExists`, `Exists(k)` is false and `Opt(k, d)` returns `d`; on every
document and path `Opt` returns the value of `Get` when `Get` succeeds and the
default when `Get` returns an error. -/
theorem missing_field_is_reported (easyJSON : EasyJSON) (k : Str)
    (hobj : easyJSON.jsonType = JSON_TYPE_OBJECT)
    (hplain : plainName k = true)
    (hlack : mapLoad k (easyJSON.m.getD []) = none) :
    Get easyJSON k = .err .ErrFieldNotExists ∧
    Exists easyJSON k = .ok false ∧
    (∀ d : Val, Opt easyJSON k d = .ok d) ∧
    (∀ (other : EasyJSON) (path : Str) (d : Val),
      (∀ v, Get other path = .ok v → Opt other path d = .ok v) ∧
      (∀ e, Get other path = .err e → Opt other path d = .ok d)) := by
  obtain ⟨hwf, hr, htok⟩ := plainName_pathWF k hplain
  have hparse := parsePath_renderPath _ hwf
  rw [hr, htok] at hparse
  have hk : (Token.Field k).wf = true := by
    have := pathTokens_wf _ hwf (Token.Field k)
    rw [htok] at this
    exact this (by simp)
  have hget : Get easyJSON k = .err .ErrFieldNotExists := by
    simp only [Get, hparse, Res.bind, List.map_cons, List.map_nil]
    rw [getLoop_field k hk]
    simp only [rootVal, hobj, if_true]
    cases hm : easyJSON.m with
    | none => simp [mapVal, asMap, mapLoad]
    | some kvs =>
      rw [hm] at hlack
      simp only [Option.getD_some] at hlack
      simp [mapVal, asMap, hlack]
  refine ⟨hget, by simp [Exists, hget], fun d => by simp [Opt, hget], ?_⟩
  intro other path d
  exact ⟨fun v hv => by simp [Opt, hv], fun e he => by simp [Opt, he]⟩

/-- Instance of C3: `{"a":1}` lacks `b`, and `Opt("b", 99)` is `99`. -/
theorem missing_field_is_reported_witness :
    Get docA1 "b".toList = .err .ErrFieldNotExists ∧
    Exists docA1 "b".toList = .ok false ∧
    Opt docA1 "b".toList (.int .int 99) = .ok (.int .int 99) :=
  have h := missing_field_is_reported docA1 "b".toList (by rfl) (by decide) (by rfl)
  ⟨h.1, h.2.1, h.2.2.1 _⟩

/-- C4, as amended: when the tokens before a terminal `Field` token resolve to
an object that is an allocated map (not the nil map) and the normalizer returns
on the value, `Set` succeeds whether the key was there or not, the object then
holds the normalized value under that key, and `Get` on the same path returns
it. -/
theorem set_field_then_get (easyJSON : EasyJSON) (segs : List Segment)
    (pre : List Token) (name : Str) (kvs : List (Str × Val)) (value nv : Val)
    (hwf : pathWF segs = true)
    (htok : pathTokens segs = pre ++ [Token.Field name])
    (hres : follow (rootVal easyJSON) pre = some (.map kvs))
    (hval : valueEncoder value = .ok nv) :
    (Set easyJSON (renderPath segs) value).2 = .ok () ∧
    follow (rootVal (Set easyJSON (renderPath segs) value).1) pre
      = some (.map (mapStore name nv kvs)) ∧
    Get (Set easyJSON (renderPath segs) value).1 (renderPath segs) = .ok nv := by
  obtain ⟨hpre, ht, _⟩ := wf_of_mem_append htok (pathTokens_wf segs hwf)
  have hparse := parsePath_renderPath segs hwf
  rw [htok, List.map_append, List.map_cons, List.map_nil] at hparse
  have hset : setLoop nv (rootVal easyJSON) (pre.map Token.text ++ [Token.text (.Field name)])
      = .ok (graft (rootVal easyJSON) pre (.map (mapStore name nv kvs))) := by
    rw [setLoop_append nv pre hpre _ _ hres, setLoop_field nv name ht]
    simp [asMap, Res.map]
  have hkeep : keepsRoot (rootVal easyJSON)
      (graft (rootVal easyJSON) pre (.map (mapStore name nv kvs))) :=
    graft_keepsRoot pre _ _ _ hres (Or.inl ⟨_, rfl, by simp [asMap]⟩)
  have hS : Set easyJSON (renderPath segs) value
      = (withRoot easyJSON (graft (rootVal easyJSON) pre (.map (mapStore name nv kvs))),
          .ok ()) := by
    simp only [Set, hval, hparse, hset]
  have hfol := follow_graft pre _ _ (.map (mapStore name nv kvs)) hres
  rw [hS]
  refine ⟨rfl, ?_, ?_⟩
  · simp only [rootVal_withRoot _ _ hkeep]
    exact hfol
  · simp only [Get, hparse, Res.bind, rootVal_withRoot _ _ hkeep]
    rw [getLoop_append pre hpre _ _ hfol, getLoop_field name ht]
    simp [asMap, mapLoad_mapStore_same, getLoop]

/-- Instance of C4: `Set("b", "x")` on `{"a":1}` creates the key. -/
theorem set_field_then_get_witness :
    (Set docA1 "b".toList (.str "x".toList)).2 = .ok () ∧
    Get (Set docA1 "b".toList (.str "x".toList)).1 "b".toList = .ok (.str "x".toList) :=
  have h := set_field_then_get docA1 [⟨"b".toList, []⟩] [] "b".toList
    [("a".toList, .int .int 1)] (.str "x".toList) (.str "x".toList)
    (by decide) (by rfl) (by rfl) (by rfl)
  ⟨h.1, h.2.2⟩

/-- C5, as amended: when a non-terminal `Field` token names a key absent from
the object it addresses, the earlier tokens resolving, and the normalizer
returns on the value, `Set` returns `ErrFieldNotExists` and the document is as
before the call. -/
theorem set_missing_intermediate_field (easyJSON : EasyJSON) (segs : List Segment)
    (pre post : List Token) (name : Str) (obj : Val) (m : List (Str × Val)) (value nv : Val)
    (hwf : pathWF segs = true)
    (htok : pathTokens segs = pre ++ Token.Field name :: post)
    (hpost : post ≠ [])
    (hres : follow (rootVal easyJSON) pre = some obj)
    (hobj : asMap obj = some m)
    (hlack : mapLoad name m = none)
    (hval : valueEncoder value = .ok nv) :
    Set easyJSON (renderPath segs) value = (easyJSON, .err .ErrFieldNotExists) := by
  obtain ⟨hpre, ht, _⟩ := wf_of_mem_append htok (pathTokens_wf segs hwf)
  have hparse := parsePath_renderPath segs hwf
  rw [htok, List.map_append, List.map_cons] at hparse
  have hne : (post.map Token.text).isEmpty = false := by
    cases post with
    | nil => exact absurd rfl hpost
    | cons t r => rfl
  simp only [Set, hval, hparse]
  rw [setLoop_append nv pre hpre _ obj hres, setLoop_field nv name ht]
  simp [hobj, hne, hlack, Res.map]

/-- Instance of C5: `Set("x.y", 5)` on `{"a":1}`. -/
theorem set_missing_intermediate_field_witness :
    Set docA1 "x.y".toList (.int .int 5) = (docA1, .err .ErrFieldNotExists) :=
  set_missing_intermediate_field docA1 [⟨"x".toList, []⟩, ⟨"y".toList, []⟩] []
    [.Field "y".toList] "x".toList (.map [("a".toList, .int .int 1)])
    [("a".toList, .int .int 1)] (.int .int 5) (.int .int 5)
    (by decide) (by rfl) (by simp) (by rfl) (by rfl) (by rfl) (by rfl)

/-- C7, as amended: on every non-empty path at which `Get` returns an array
`xs`, and for every value on which the normalizer returns, `Append` succeeds
and `Get` on the same path then returns `xs` followed by the normalized value
as the one new last element. -/
theorem append_extends_array (easyJSON : EasyJSON) (path : Str) (arr : Val)
    (xs : List Val) (value nv : Val)
    (hne : path ≠ [])
    (hget : Get easyJSON path = .ok arr)
    (harr : asSlice arr = some xs)
    (hval : valueEncoder value = .ok nv) :
    (Append easyJSON path value).2 = .ok () ∧
    Get (Append easyJSON path value).1 path = .ok (.slice (xs ++ [nv])) := by
  unfold Get at hget
  cases hpp : parsePath path with
  | err e => simp [hpp, Res.bind] at hget
  | panic p => simp [hpp, Res.bind] at hget
  | ok names =>
    simp only [hpp, Res.bind] at hget
    obtain ⟨r, hr1, hr2, hkeep⟩ :=
      appendLoop_then_getLoop nv xs names _ arr (parsePath_ne_nil path names hpp) hget harr
    have hA : Append easyJSON path value = (withRoot easyJSON r, .ok ()) := by
      simp only [Append, hval, hne, if_false, hpp, hr1]
    rw [hA]
    refine ⟨rfl, ?_⟩
    simp only [Get, hpp, Res.bind, rootVal_withRoot _ _ hkeep]
    exact hr2

/-- Instance of C7: from `{"a":[1]}`, `Append("a", 2)` gives a document that
serializes to `{"a":[1,2]}`. -/
theorem append_extends_array_witness :
    (Append docA1list "a".toList (.int .int 2)).2 = .ok () ∧
    Get (Append docA1list "a".toList (.int .int 2)).1 "a".toList
      = .ok (.slice [.int .int 1, .int .int 2]) ∧
    String (fun _ => []) (Append docA1list "a".toList (.int .int 2)).1
      = .ok "\x7b\"a\":[1,2]\x7d".toList :=
  have h := append_extends_array docA1list "a".toList (.slice [.int .int 1]) [.int .int 1]
    (.int .int 2) (.int .int 2) (by decide) (by rfl) (by rfl) (by rfl)
  ⟨h.1, h.2, by rfl⟩

/-- C8, as amended: `Append` with the empty path and a value on which the
normalizer returns does not go through the path parser (which panics on the
empty text). On an array-rooted document it succeeds and the root becomes the
old elements followed by the normalized value; on an object-rooted document it
returns `ErrNotAnArray` and the document is as before. -/
theorem append_empty_path (easyJSON : EasyJSON) (value nv : Val)
    (hval : valueEncoder value = .ok nv) :
    parsePath [] = .panic .indexOutOfRange ∧
    (easyJSON.jsonType = JSON_TYPE_ARRAY →
      (Append easyJSON [] value).2 = .ok () ∧
      (Append easyJSON [] value).1.jsonType = JSON_TYPE_ARRAY ∧
      ∀ xs, asSlice (rootVal easyJSON) = some xs →
        rootVal (Append easyJSON [] value).1 = .slice (xs ++ [nv])) ∧
    (easyJSON.jsonType = JSON_TYPE_OBJECT →
      Append easyJSON [] value = (easyJSON, .err .ErrNotAnArray)) := by
  refine ⟨by rfl, ?_, ?_⟩
  · intro harr
    have hno : easyJSON.jsonType ≠ JSON_TYPE_OBJECT := by
      rw [harr]; decide
    have hA : Append easyJSON [] value
        = ({ easyJSON with a := some (easyJSON.a.getD [] ++ [nv]) }, .ok ()) := by
      simp [Append, hval, harr]
    rw [hA]
    refine ⟨rfl, harr, ?_⟩
    intro xs hxs
    simp only [rootVal, hno, if_false] at hxs ⊢
    cases ha : easyJSON.a with
    | none =>
      rw [ha] at hxs
      simp only [sliceVal, asSlice, Option.some.injEq] at hxs
      simp [sliceVal, ← hxs]
    | some ys =>
      rw [ha] at hxs
      simp only [sliceVal, asSlice, Option.some.injEq] at hxs
      simp [sliceVal, ← hxs]
  · intro hobj
    have hno : easyJSON.jsonType ≠ JSON_TYPE_ARRAY := by
      rw [hobj]; decide
    simp [Append, hval, hno]

/-- Instance of C8: `Append("", 7)` on `[1,2]` gives `[1,2,7]`, and on
`{"a":1}` it returns `ErrNotAnArray`. -/
theorem append_empty_path_witness :
    rootVal (Append docRoot12 [] (.int .int 7)).1
      = .slice [.int .int 1, .int .int 2, .int .int 7] ∧
    Append docA1 [] (.int .int 7) = (docA1, .err .ErrNotAnArray) :=
  have h := append_empty_path docRoot12 (.int .int 7) (.int .int 7) (by rfl)
  have h2 := append_empty_path docA1 (.int .int 7) (.int .int 7) (by rfl)
  ⟨(h.2.1 (by rfl)).2.2 _ (by rfl), h2.2.2 (by rfl)⟩

/-- C9: an array without elements serializes as `[]`, never as `null`: the nil
slice and the empty slice alike, as an element or entry value inside another
container and as the root; `Array()` gives `[]` and `Object("a", Array())`
gives `{"a":[]}`. -/
theorem empty_array_serializes_as_brackets (fmtExt : Val → Str) :
    itemJSON fmtExt .nilSlice = .ok "[]".toList ∧
    itemJSON fmtExt (.slice []) = .ok "[]".toList ∧
    toJSONString fmtExt .nilSlice JSON_TYPE_ARRAY = .ok "[]".toList ∧
    toJSONString fmtExt (.slice []) JSON_TYPE_ARRAY = .ok "[]".toList ∧
    (∀ m, String fmtExt ⟨JSON_TYPE_ARRAY, m, none⟩ = .ok "[]".toList) ∧
    (∀ m, String fmtExt ⟨JSON_TYPE_ARRAY, m, some []⟩ = .ok "[]".toList) ∧
    (Array []).bind (String fmtExt) = .ok "[]".toList ∧
    (Array []).bind (fun arr => stringOf fmtExt (Object [.str "a".toList, handle arr]))
      = .ok "\x7b\"a\":[]\x7d".toList ∧
    (∀ k : Str, toJSONString fmtExt (.map [(k, .nilSlice)]) JSON_TYPE_OBJECT
      = .ok ("\x7b\"".toList ++ k ++ "\":[]\x7d".toList)) ∧
    (∀ k : Str, toJSONString fmtExt (.map [(k, .slice [])]) JSON_TYPE_OBJECT
      = .ok ("\x7b\"".toList ++ k ++ "\":[]\x7d".toList)) ∧
    toJSONString fmtExt (.slice [.nilSlice]) JSON_TYPE_ARRAY = .ok "[[]]".toList ∧
    toJSONString fmtExt (.slice [.slice []]) JSON_TYPE_ARRAY = .ok "[[]]".toList := by
  refine ⟨rfl, rfl, rfl, rfl, fun _ => rfl, fun _ => rfl, rfl, rfl, ?_, ?_, rfl, rfl⟩
  · intro k
    simp [toJSONString, JSON_TYPE_OBJECT, asMap, pairsJSON, itemJSON, Res.bind, Res.map, dq]
  · intro k
    simp [toJSONString, JSON_TYPE_OBJECT, asMap, pairsJSON, itemJSON, itemsJSON, Res.bind,
      Res.map, dq]

/-- C10: a string is emitted as a double quote, its characters unchanged, and a
double quote, whatever the characters are: `Array(s)` serializes to `["s"]` and
`Object(k, s)` to `{"k":"s"}`, key and value both unescaped. -/
theorem strings_are_not_escaped (fmtExt : Val → Str) (s k : Str) :
    itemJSON fmtExt (.str s) = .ok ("\"".toList ++ s ++ "\"".toList) ∧
    (Array [.str s]).bind (String fmtExt) = .ok ("[\"".toList ++ s ++ "\"]".toList) ∧
    stringOf fmtExt (Object [.str k, .str s])
      = .ok ("\x7b\"".toList ++ k ++ "\":\"".toList ++ s ++ "\"\x7d".toList) ∧
    (Array [.str "a\"b\\c\n".toList]).bind (String fmtExt)
      = .ok "[\"a\"b\\c\n\"]".toList := by
  refine ⟨?_, ?_, ?_, rfl⟩
  · simp [itemJSON, dq]
  · simp [Array, arrayLoop, valueEncoder, Res.bind, Res.map, String, JSON_TYPE_ARRAY,
      JSON_TYPE_OBJECT, toJSONString, sliceVal, asSlice, itemsJSON, itemJSON, dq]
  · simp [Object, objectLoop, valueEncoder, Res.bind, Res.map, stringOf, String,
      JSON_TYPE_OBJECT, toJSONString, mapVal, asMap, mapStore, pairsJSON, itemJSON, dq]

/-- C12 at the failing input: a slice of document handles of type `[]*EasyJSON`
makes the normalizer panic, because its type string contains `EasyJSON` and the
value is then asserted to be a `*EasyJSON`; so does `Array` on it. The same
handles in a `[]interface{}` normalize to the array of their roots. -/
theorem typed_handle_slice_panics :
    valueEncoder handlesTyped = .panic .typeAssertion ∧
    Array [handlesTyped] = .panic .typeAssertion ∧
    valueEncoder handlesUntyped = .ok (.slice [.map [("a".toList, .int .int 1)]]) := by
  refine ⟨rfl, rfl, rfl⟩

/-- C13, as amended: every typed `Opt*` accessor returns the caller's default
when `Get` returns an error (the path does not resolve). When `Get` finds a
value of the wrong kind, `OptBoolean`, `OptString`, `OptObject` and `OptArray`
use no default: they panic on the unchecked type assertion. -/
theorem opt_accessors_default_on_get_error (floatToInt64 : FloatKind → Nat → Int)
    (widen : Nat → Float64) (easyJSON : EasyJSON) (path : Str) (e : Err)
    (hget : Get easyJSON path = .err e) :
    (∀ d, OptInt64 floatToInt64 easyJSON path d = .ok d) ∧
    (∀ d, OptFloat64 widen easyJSON path d = .ok d) ∧
    (∀ d, OptBoolean easyJSON path d = .ok d) ∧
    (∀ d, OptString easyJSON path d = .ok d) ∧
    (∀ d, OptObject easyJSON path d = .ok d) ∧
    (∀ d, OptArray easyJSON path d = .ok d) ∧
    (∀ (doc : EasyJSON) (p : Str) (v : Val), Get doc p = .ok v →
      ((∀ b, v ≠ .bool b) → ∀ d, OptBoolean doc p d = .panic .typeAssertion) ∧
      ((∀ s, v ≠ .str s) → ∀ d, OptString doc p d = .panic .typeAssertion) ∧
      (asMap v = none → ∀ d, OptObject doc p d = .panic .typeAssertion) ∧
      (asSlice v = none → ∀ d, OptArray doc p d = .panic .typeAssertion)) := by
  refine ⟨?_, ?_, ?_, ?_, ?_, ?_, ?_⟩
  · intro d; simp [OptInt64, GetInt64, hget]
  · intro d; simp [OptFloat64, GetFloat64, hget]
  · intro d; simp [OptBoolean, GetBoolean, hget]
  · intro d; simp [OptString, GetString, hget]
  · intro d; simp [OptObject, GetObject, hget]
  · intro d; simp [OptArray, GetArray, hget]
  · intro doc p v hv
    refine ⟨?_, ?_, ?_, ?_⟩
    · intro h1 d
      cases v <;> simp_all [OptBoolean, GetBoolean]
    · intro h1 d
      cases v <;> simp_all [OptString, GetString]
    · intro h1 d
      cases v <;> simp_all [OptObject, GetObject, asMap]
    · intro h1 d
      cases v <;> simp_all [OptArray, GetArray, asSlice]

/-- Instance of C13: `{"a":1}` has no `b`, so the defaults come back; on `a`,
which holds a number, `OptString` panics. -/
theorem opt_accessors_default_on_get_error_witness :
    OptInt64 (fun _ _ => 0) docA1 "b".toList 7 = .ok 7 ∧
    OptString docA1 "b".toList "d".toList = .ok "d".toList ∧
    OptString docA1 "a".toList "d".toList = .panic .typeAssertion :=
  have h := opt_accessors_default_on_get_error (fun _ _ => 0) (fun b => b) docA1 "b".toList
    .ErrFieldNotExists (by rfl)
  ⟨h.1 7, h.2.2.2.1 _, (h.2.2.2.2.2.2 docA1 "a".toList (.int .int 1) (by rfl)).2.1
    (by intro s; exact fun hs => Val.noConfusion hs) _⟩

/-- C13 fails as stated: on `{"a":1}`, `OptString("a", "d")` does not return
`"d"` but panics on the type assertion, and on `{"s":"x"}`, `OptInt64("s", 7)`
returns `0`, not `7`. -/
theorem opt_wrong_kind_not_default :
    OptString docA1 "a".toList "d".toList = .panic .typeAssertion ∧
    OptInt64 (fun _ _ => 0) docSx "s".toList 7 = .ok 0 := by
  refine ⟨rfl, rfl⟩

/-- C14: on the text of every well-formed path (segments joined by dots, each a
non-empty field name without dot or opening bracket followed by bracketed digit
suffixes, or a non-empty chain of such suffixes; no white space around the
text) `parsePath` returns, without a fault, the list made segment by segment of
the field name, if any, followed by each bracketed index in order. -/
theorem parsePath_correct_on_well_formed (segs : List Segment) (hwf : pathWF segs = true) :
    parsePath (renderPath segs) = .ok ((pathTokens segs).map Token.text) ∧
    (pathTokens segs).map Token.text
      = segs.flatMap fun seg =>
          (if seg.name = [] then [] else [seg.name])
            ++ seg.idxs.map fun ds => '[' :: ds ++ [']'] := by
  refine ⟨parsePath_renderPath segs hwf, ?_⟩
  clear hwf
  induction segs with
  | nil => rfl
  | cons seg rest ih =>
    simp only [pathTokens, List.map_append, ih, List.flatMap_cons]
    congr 1
    simp only [Segment.tokens, List.map_append, List.map_map]
    congr 1
    split <;> rfl

/-- Instance of C14: `a.b[0][1].c` gives `a`, `b`, `[0]`, `[1]`, `c`. -/
theorem parsePath_correct_on_well_formed_witness :
    parsePath "a.b[0][1].c".toList
      = .ok ["a".toList, "b".toList, "[0]".toList, "[1]".toList, "c".toList] :=
  (parsePath_correct_on_well_formed pathAB01C (by decide)).1

/-- C15 at the failing input: the JSON text `"{"` is a bare string, the scan of
`Parse` finds the brace inside it and takes the text for an object, the decoder
succeeds with a string, and the assertion `data.(map[string]interface{})`
panics: neither an error nor a document. -/
theorem parse_scalar_with_brace_panics :
    scanJSONType [dq, '{', dq] = JSON_TYPE_OBJECT ∧
    decodeBraceString [dq, '{', dq] = .ok (.str ['{']) ∧
    Parse decodeBraceString [dq, '{', dq] = .panic .typeAssertion := by
  refine ⟨rfl, rfl, rfl⟩

/-- C16, as amended: where an integer `n` of one of the ten types of the type
switch (`int`, `int8`, `int16`, `int32`, `int64`, `uint`, `uint8`, `uint16`,
`uint32`, `uint64`; not `uintptr`, not a named integer type) is stored at a
path, `GetInt64` returns `int64(n)` with no error: `n` itself whenever `n` lies
in the range of `int64`, and `n - 2^64` for a `uint` or `uint64` from `2^63`
on. -/
theorem getInt64_on_stored_integer (floatToInt64 : FloatKind → Nat → Int)
    (easyJSON : EasyJSON) (path : Str) (kind : IntKind) (n : Int)
    (hget : Get easyJSON path = .ok (.int kind n)) :
    GetInt64 floatToInt64 easyJSON path = .ok (toInt64 n) ∧
    (-9223372036854775808 ≤ n → n < 9223372036854775808 → toInt64 n = n) ∧
    (9223372036854775808 ≤ n → n < 18446744073709551616 →
      toInt64 n = n - 18446744073709551616) := by
  refine ⟨by simp [GetInt64, hget], ?_, ?_⟩
  · intro h1 h2
    unfold toInt64
    rw [Int.emod_eq_of_lt (by omega) (by omega)]
    omega
  · intro h1 h2
    unfold toInt64
    omega

/-- Instance of C16: `Object("k", 1)` is the document `{"k":1}` and
`GetInt64("k")` returns `1`. -/
theorem getInt64_on_stored_integer_witness :
    Object [.str "k".toList, .int .int 1] = .ok (some docK1) ∧
    GetInt64 (fun _ _ => 0) docK1 "k".toList = .ok 1 :=
  ⟨by rfl, (getInt64_on_stored_integer (fun _ _ => 0) docK1 "k".toList .int 1 (by rfl)).1⟩

/-- C16 fails as stated: on `Object("k", 1)` the call `GetFloat64("k")` returns
`0` with no error, on `Object("k", uint64(18446744073709551615))` the call
`GetInt64("k")` returns `-1`, and on `Object("k", uintptr(7))` and
`Object("k", time.Duration(7))`, whose types the type switch does not list, it
returns `0`. -/
theorem numeric_narrowing_loses_integers :
    GetFloat64 (fun bits => bits) docK1 "k".toList = .ok 0 ∧
    GetInt64 (fun _ _ => 0) docKmax "k".toList = .ok (-1) ∧
    Object [.str "k".toList, uintptr7] = .ok (some docKuintptr) ∧
    GetInt64 (fun _ _ => 0) docKuintptr "k".toList = .ok 0 ∧
    Object [.str "k".toList, duration7] = .ok (some docKduration) ∧
    GetInt64 (fun _ _ => 0) docKduration "k".toList = .ok 0 := by
  refine ⟨rfl, rfl, rfl, rfl, rfl, rfl⟩

/-- C17, as amended: a bracketed suffix whose enclosed text (without dot and
closing bracket) is not an optionally signed run of decimal digits is read as
index `0`: `Get`, `Set` and `Append` do on the path exactly what they do on the
path with `[0]` in its place. A text with a sign is a number to `strconv.Atoi`
and is not read as `0`. -/
theorem malformed_index_reads_as_zero (easyJSON : EasyJSON) (segs : List Segment)
    (value : Val) (hwf : pathWFLoose segs = true) :
    (∀ t, isNumeral t = false → Atoi t = 0) ∧
    Get easyJSON (renderPath segs) = Get easyJSON (renderPath (segs.map Segment.zeroed)) ∧
    Set easyJSON (renderPath segs) value
      = Set easyJSON (renderPath (segs.map Segment.zeroed)) value ∧
    Append easyJSON (renderPath segs) value
      = Append easyJSON (renderPath (segs.map Segment.zeroed)) value := by
  have hwf0 := pathWFLoose_zeroed segs hwf
  have hp := parsePath_renderPath_loose segs hwf
  have hp0 := parsePath_renderPath_loose _ hwf0
  rw [pathTokens_zeroed] at hp0
  have hn := renderPath_ne_nil_loose segs hwf
  have hn0 := renderPath_ne_nil_loose _ hwf0
  refine ⟨Atoi_of_not_numeral, ?_, ?_, ?_⟩
  · simp only [Get, hp, hp0, Res.bind]
    exact (loops_zeroed .null (pathTokens segs)).1 _
  · unfold Set
    cases hv : valueEncoder value with
    | err e => rfl
    | panic p => rfl
    | ok nv =>
      simp only [hp, hp0]
      rw [(loops_zeroed nv (pathTokens segs)).2.1]
  · unfold Append
    cases hv : valueEncoder value with
    | err e => rfl
    | panic p => rfl
    | ok nv =>
      simp only [hp, hp0, hn, hn0, if_false]
      rw [(loops_zeroed nv (pathTokens segs)).2.2]

/-- Instance of C17: on `[10,20]` the path `[x]` reads what `[0]` reads. -/
theorem malformed_index_reads_as_zero_witness :
    Get docRoot1020 "[x]".toList = Get docRoot1020 "[0]".toList ∧
    Get docRoot1020 "[x]".toList = .ok (.int .int 10) :=
  have h := malformed_index_reads_as_zero docRoot1020 pathBracketX .null (by decide)
  ⟨h.2.1, by rfl⟩

/-- C17 fails as stated: on `[10,20]` the path `[+1]` reads the element at
index `1`, not the one `[0]` reads, and the path `[-1]` panics with an index
out of range. -/
theorem signed_index_is_not_zero :
    Get docRoot1020 "[+1]".toList = .ok (.int .int 20) ∧
    Get docRoot1020 "[0]".toList = .ok (.int .int 10) ∧
    Get docRoot1020 "[-1]".toList = .panic .indexOutOfRange := by
  refine ⟨rfl, rfl, rfl⟩

/-- C18: when the tokens before a token resolve to a node of the other kind (an
`Index` token on a non-array, a `Field` token on a non-object), `Get` ends in
the panic of a failed type assertion, and so do `Set` and `Append` for a value
the normalizer accepts; for every value `Set` and `Append` end in a panic and
leave the document as it was. None of them returns a value or an error. -/
theorem kind_mismatch_panics (easyJSON : EasyJSON) (segs : List Segment)
    (pre post : List Token) (t : Token) (node value : Val)
    (hwf : pathWF segs = true)
    (htok : pathTokens segs = pre ++ t :: post)
    (hres : follow (rootVal easyJSON) pre = some node)
    (hmis : t.mismatches node = true) :
    Get easyJSON (renderPath segs) = .panic .typeAssertion ∧
    (∀ nv, valueEncoder value = .ok nv →
      Set easyJSON (renderPath segs) value = (easyJSON, .panic .typeAssertion) ∧
      Append easyJSON (renderPath segs) value = (easyJSON, .panic .typeAssertion)) ∧
    (∃ f, Set easyJSON (renderPath segs) value = (easyJSON, .panic f)) ∧
    (∃ f, Append easyJSON (renderPath segs) value = (easyJSON, .panic f)) := by
  obtain ⟨hpre, ht, _⟩ := wf_of_mem_append htok (pathTokens_wf segs hwf)
  have hparse := parsePath_renderPath segs hwf
  rw [htok, List.map_append, List.map_cons] at hparse
  have hne := renderPath_ne_nil segs hwf
  have hboth : ∀ nv, valueEncoder value = .ok nv →
      Set easyJSON (renderPath segs) value = (easyJSON, .panic .typeAssertion) ∧
      Append easyJSON (renderPath segs) value = (easyJSON, .panic .typeAssertion) := by
    intro nv hval
    cases t with
    | Index ds =>
      have hn : asSlice node = none := by simpa [Token.mismatches] using hmis
      constructor
      · simp only [Set, hval, hparse]
        rw [setLoop_append nv pre hpre _ node hres, setLoop_index nv ds ht]
        simp [hn, Res.map]
      · simp only [Append, hval, hparse, hne, if_false]
        rw [appendLoop_append nv pre hpre _ node hres, appendLoop_index nv ds ht]
        simp [hn, Res.map]
    | Field k =>
      have hn : asMap node = none := by simpa [Token.mismatches] using hmis
      constructor
      · simp only [Set, hval, hparse]
        rw [setLoop_append nv pre hpre _ node hres, setLoop_field nv k ht]
        simp [hn, Res.map]
      · simp only [Append, hval, hparse, hne, if_false]
        rw [appendLoop_append nv pre hpre _ node hres, appendLoop_field nv k ht]
        simp [hn, Res.map]
  refine ⟨?_, hboth, ?_⟩
  · simp only [Get, hparse, Res.bind]
    rw [getLoop_append pre hpre _ node hres]
    cases t with
    | Index ds =>
      have hn : asSlice node = none := by simpa [Token.mismatches] using hmis
      rw [getLoop_index ds ht]
      simp [hn]
    | Field k =>
      have hn : asMap node = none := by simpa [Token.mismatches] using hmis
      rw [getLoop_field k ht]
      simp [hn]
  · exact Set_Append_panic_of_loops easyJSON _ value
      (fun nv hv => ⟨_, (hboth nv hv).1⟩) (fun nv hv => ⟨_, (hboth nv hv).2⟩)

/-- Instance of C18: on `{"a":1}` the path `a[0]` applies an index to a number. -/
theorem kind_mismatch_panics_witness :
    Get docA1 "a[0]".toList = .panic .typeAssertion ∧
    Set docA1 "a[0]".toList (.int .int 5) = (docA1, .panic .typeAssertion) ∧
    Append docA1 "a[0]".toList (.int .int 5) = (docA1, .panic .typeAssertion) :=
  have h := kind_mismatch_panics docA1 pathA0 [.Field "a".toList] [] (.Index "0".toList)
    (.int .int 1) (.int .int 5) (by decide) (by rfl) (by rfl) (by rfl)
  ⟨h.1, (h.2.1 _ (by rfl)).1, (h.2.1 _ (by rfl)).2⟩

/-- C19, as amended: for a pointer of type `*T` to a value `x` of type `T` that
is a record, a collection, a map or a scalar, the name of `T` not containing
`EasyJSON`, normalizing the pointer has the same outcome as normalizing `x`.
The pointer is dereferenced once and the pointee is not looked at again as a
pointer: a pointer to another pointer normalizes to that inner pointer, as it
is. -/
theorem pointer_normalizes_like_plain_pointee (x : Val) (hplain : plainPointee x = true)
    (hty : mentionsEasyJSON (typeString x) = false) :
    valueEncoder (.ptr ('*' :: typeString x) x) = valueEncoder x ∧
    (∀ (ty : Str) (target : Val), mentionsEasyJSON ty = false →
      valueEncoder (.ptr ('*' :: ty) (.ptr ty target)) = .ok (.ptr ty target)) := by
  constructor
  · cases x with
    | null => simp [plainPointee] at hplain
    | easyJSON j m a => simp [plainPointee] at hplain
    | nilEasyJSON => simp [plainPointee] at hplain
    | ptr ty t => simp [plainPointee] at hplain
    | nilPtr ty => simp [plainPointee] at hplain
    | bool b => rfl
    | int k n => cases k <;> rfl
    | float k bits => cases k <;> rfl
    | str s => rfl
    | slice xs => rfl
    | nilSlice => rfl
    | map kvs => rfl
    | nilMap => rfl
    | struct ty fields =>
      simp only [typeString] at hty
      simp only [valueEncoder, typeString, mentionsEasyJSON_star, hty, Bool.false_eq_true,
        if_false]
    | seq ty isArray xs =>
      simp only [typeString] at hty
      simp only [valueEncoder, typeString, mentionsEasyJSON_star, hty, Bool.false_eq_true,
        if_false]
    | other ty kind id =>
      simp only [typeString] at hty
      simp only [valueEncoder, typeString, mentionsEasyJSON_star, hty, Bool.false_eq_true,
        if_false]
  · intro ty target hty
    simp only [valueEncoder, mentionsEasyJSON_star, hty, Bool.false_eq_true, if_false]

/-- Instance of C19: a pointer to the record `Person` normalizes as the record
does. -/
theorem pointer_normalizes_like_plain_pointee_witness :
    valueEncoder (.ptr "*main.Person".toList recPerson) = valueEncoder recPerson ∧
    valueEncoder (.ptr "*main.Person".toList recPerson)
      = .ok (.map [("n".toList, .str "bob".toList), ("Age".toList, .int .int 30)]) :=
  ⟨(pointer_normalizes_like_plain_pointee recPerson (by rfl) (by decide)).1, by rfl⟩

/-- C19 fails as stated: a pointer to a pointer to `5` normalizes to the inner
pointer, while that inner pointer normalizes to `5`; and a nil pointer makes
the normalizer panic. -/
theorem pointer_to_pointer_not_normalized :
    valueEncoder ptrToPtr = .ok ptrToInt ∧
    valueEncoder ptrToInt = .ok (.int .int 5) ∧
    valueEncoder ptrToPtr ≠ valueEncoder ptrToInt ∧
    valueEncoder (.nilPtr "*int".toList) = .panic .reflectPanic := by
  refine ⟨rfl, rfl, ?_, rfl⟩
  intro h
  have h1 : valueEncoder ptrToPtr = .ok ptrToInt := rfl
  have h2 : valueEncoder ptrToInt = .ok (.int .int 5) := rfl
  rw [h1, h2] at h
  injection h with h3
  exact Val.noConfusion h3

/-- C20: on a path that, after trimming, has an empty piece between dots (the
empty or all-blank path, a leading dot, a trailing dot, two dots in a row)
`parsePath` panics with an index out of range, so `Get` and `Exists` panic and
return nothing; `Set`, and `Append` when the path is not the empty text, end in
a panic for every value and leave the document as it was. -/
theorem empty_segment_faults (easyJSON : EasyJSON) (path : Str) (value : Val)
    (h : hasEmptySegment path = true) :
    parsePath path = .panic .indexOutOfRange ∧
    Get easyJSON path = .panic .indexOutOfRange ∧
    Exists easyJSON path = .panic .indexOutOfRange ∧
    (∃ f, Set easyJSON path value = (easyJSON, .panic f)) ∧
    (path ≠ [] → ∃ f, Append easyJSON path value = (easyJSON, .panic f)) ∧
    (∀ nv, valueEncoder value = .ok nv →
      Set easyJSON path value = (easyJSON, .panic .indexOutOfRange) ∧
      (path ≠ [] → Append easyJSON path value = (easyJSON, .panic .indexOutOfRange))) := by
  have hp := parsePath_panic_of_empty_segment path h
  have hget : Get easyJSON path = .panic .indexOutOfRange := by
    simp [Get, hp, Res.bind]
  have hboth : ∀ nv, valueEncoder value = .ok nv →
      Set easyJSON path value = (easyJSON, .panic .indexOutOfRange) ∧
      (path ≠ [] → Append easyJSON path value = (easyJSON, .panic .indexOutOfRange)) := by
    intro nv hv
    refine ⟨by simp [Set, hv, hp], fun hne => by simp [Append, hv, hp, hne]⟩
  refine ⟨hp, hget, by simp [Exists, hget], ?_, ?_, hboth⟩
  · rcases valueEncoder_ok_or_panic value with ⟨nv, hv⟩ | ⟨f, hv⟩
    · exact ⟨_, (hboth nv hv).1⟩
    · exact ⟨f, by simp [Set, hv]⟩
  · intro hne
    rcases valueEncoder_ok_or_panic value with ⟨nv, hv⟩ | ⟨f, hv⟩
    · exact ⟨_, (hboth nv hv).2 hne⟩
    · exact ⟨f, by simp [Append, hv]⟩

/-- Instance of C20: `Get("")` panics instead of returning the root, and so do
`Get(" ")`, `Get(".a")`, `Get("a.")` and `Get("a..b")`. -/
theorem empty_segment_faults_witness :
    Get docA1 [] = .panic .indexOutOfRange ∧
    Get docA1 " ".toList = .panic .indexOutOfRange ∧
    Get docA1 ".a".toList = .panic .indexOutOfRange ∧
    Get docA1 "a.".toList = .panic .indexOutOfRange ∧
    Get docA1 "a..b".toList = .panic .indexOutOfRange ∧
    Exists docA1 [] = .panic .indexOutOfRange ∧
    Set docA1 "a.".toList (.int .int 5) = (docA1, .panic .indexOutOfRange) ∧
    Append docA1 "a.".toList (.int .int 5) = (docA1, .panic .indexOutOfRange) :=
  ⟨(empty_segment_faults docA1 [] .null (by decide)).2.1,
    (empty_segment_faults docA1 " ".toList .null (by decide)).2.1,
    (empty_segment_faults docA1 ".a".toList .null (by decide)).2.1,
    (empty_segment_faults docA1 "a.".toList .null (by decide)).2.1,
    (empty_segment_faults docA1 "a..b".toList .null (by decide)).2.1,
    (empty_segment_faults docA1 [] .null (by decide)).2.2.1,
    ((empty_segment_faults docA1 "a.".toList (.int .int 5) (by decide)).2.2.2.2.2 _
      (by rfl)).1,
    ((empty_segment_faults docA1 "a.".toList (.int .int 5) (by decide)).2.2.2.2.2 _
      (by rfl)).2 (by decide)⟩

/-- C21: on a well-formed path whose tokens before the last resolve to a node
and whose last token addresses there something that is not an array (a key the
object lacks, or a key or in-range index whose value is null, a scalar or an
object), `Append` ends in the panic of a failed type assertion for a value the
normalizer accepts, and in a panic for every value: it returns no error, in
particular none of `ErrNotAnArray`, `ErrFieldNotExists`, `ErrIndexOutOfBounds`,
it does not return normally, and the document is as before the call (no array
is created). -/
theorem append_on_non_array_panics (easyJSON : EasyJSON) (segs : List Segment)
    (pre : List Token) (t : Token) (node value : Val)
    (hwf : pathWF segs = true)
    (htok : pathTokens segs = pre ++ [t])
    (hres : follow (rootVal easyJSON) pre = some node)
    (hnot : t.targetNotArray node = true) :
    (∀ nv, valueEncoder value = .ok nv →
      Append easyJSON (renderPath segs) value = (easyJSON, .panic .typeAssertion)) ∧
    (∃ f, Append easyJSON (renderPath segs) value = (easyJSON, .panic f)) ∧
    (∀ e, (Append easyJSON (renderPath segs) value).2 ≠ .err e) ∧
    (Append easyJSON (renderPath segs) value).2 ≠ .ok () ∧
    (Append easyJSON (renderPath segs) value).1 = easyJSON := by
  obtain ⟨hpre, ht, _⟩ := wf_of_mem_append htok (pathTokens_wf segs hwf)
  have hparse := parsePath_renderPath segs hwf
  rw [htok, List.map_append, List.map_cons, List.map_nil] at hparse
  have hne := renderPath_ne_nil segs hwf
  have hok : ∀ nv, valueEncoder value = .ok nv →
      Append easyJSON (renderPath segs) value = (easyJSON, .panic .typeAssertion) := by
    intro nv hval
    simp only [Append, hval, hparse, hne, if_false]
    rw [appendLoop_append nv pre hpre _ node hres,
      appendLoop_terminal_not_array nv t ht node hnot]
    rfl
  have hex : ∃ f, Append easyJSON (renderPath segs) value = (easyJSON, .panic f) := by
    rcases valueEncoder_ok_or_panic value with ⟨nv, hv⟩ | ⟨f, hv⟩
    · exact ⟨_, hok nv hv⟩
    · exact ⟨f, by simp [Append, hv]⟩
  obtain ⟨f, hf⟩ := hex
  refine ⟨hok, ⟨f, hf⟩, ?_, ?_, ?_⟩
  · intro e; rw [hf]; exact fun h => Res.noConfusion h
  · rw [hf]; exact fun h => Res.noConfusion h
  · rw [hf]

/-- Instance of C21: on `{"a":1}`, `Append("a", 5)` (a scalar) and
`Append("b", 5)` (an absent key) panic; so do `Append("a", 5)` on `{"a":null}`,
`Append("[0]", 5)` on `[10,20]` and `Append("a.b[0]", 5)` on
`{"a":{"b":[{"c":1},{"c":2}]}}` (an object). -/
theorem append_on_non_array_panics_witness :
    Append docA1 "a".toList (.int .int 5) = (docA1, .panic .typeAssertion) ∧
    Append docA1 "b".toList (.int .int 5) = (docA1, .panic .typeAssertion) ∧
    Append docANull "a".toList (.int .int 5) = (docANull, .panic .typeAssertion) ∧
    Append docRoot1020 "[0]".toList (.int .int 5) = (docRoot1020, .panic .typeAssertion) ∧
    Append docNested "a.b[0]".toList (.int .int 5) = (docNested, .panic .typeAssertion) :=
  ⟨(append_on_non_array_panics docA1 pathA [] (.Field "a".toList) (rootVal docA1)
      (.int .int 5) (by decide) (by rfl) (by rfl) (by rfl)).1 _ (by rfl),
   (append_on_non_array_panics docA1 pathB [] (.Field "b".toList) (rootVal docA1)
      (.int .int 5) (by decide) (by rfl) (by rfl) (by rfl)).1 _ (by rfl),
   (append_on_non_array_panics docANull pathA [] (.Field "a".toList) (rootVal docANull)
      (.int .int 5) (by decide) (by rfl) (by rfl) (by rfl)).1 _ (by rfl),
   (append_on_non_array_panics docRoot1020 pathIdx0 [] (.Index "0".toList)
      (rootVal docRoot1020) (.int .int 5) (by decide) (by rfl) (by rfl) (by rfl)).1 _ (by rfl),
   (append_on_non_array_panics docNested pathAB0 [.Field "a".toList, .Field "b".toList]
      (.Index "0".toList)
      (.slice [.map [("c".toList, .int .int 1)], .map [("c".toList, .int .int 2)]])
      (.int .int 5) (by decide) (by rfl) (by rfl) (by rfl)).1 _ (by rfl)⟩

/-- C2 fails as stated: `Set` and `Append` normalize the value before they
read the path, and the normalizer panics on a nil pointer; on `{"a":[1,2]}`
with the path `a[5]` and the value `(*int)(nil)` they panic and do not return
`ErrIndexOutOfBounds`. -/
theorem out_of_bounds_not_reported_on_nil_pointer :
    valueEncoder nilIntPtr = .panic .reflectPanic ∧
    Set docA12 "a[5]".toList nilIntPtr = (docA12, .panic .reflectPanic) ∧
    Append docA12 "a[5]".toList nilIntPtr = (docA12, .panic .reflectPanic) ∧
    (Set docA12 "a[5]".toList nilIntPtr).2 ≠ .err .ErrIndexOutOfBounds ∧
    (Append docA12 "a[5]".toList nilIntPtr).2 ≠ .err .ErrIndexOutOfBounds := by
  refine ⟨rfl, rfl, rfl, ?_, ?_⟩ <;> decide

/-- C4 fails as stated: on `{"a":1}`, `Set("b", (*int)(nil))` panics in the
normalizer; and on `Object("a", map[string]interface{}(nil))`, where `a` holds
a nil map, `Set("a.b", 1)` panics on the assignment to an entry of a nil map.
Neither succeeds. -/
theorem set_field_fails_on_nil_pointer_and_nil_map :
    Set docA1 "b".toList nilIntPtr = (docA1, .panic .reflectPanic) ∧
    Object [.str "a".toList, .nilMap] = .ok (some docANilMap) ∧
    Get docANilMap "a".toList = .ok .nilMap ∧
    Set docANilMap "a.b".toList (.int .int 1) = (docANilMap, .panic .nilMapWrite) := by
  refine ⟨rfl, rfl, rfl, rfl⟩

/-- C5 fails as stated: on `{"a":1}`, `Set("x.y", (*int)(nil))` panics in the
normalizer and does not return `ErrFieldNotExists`. -/
theorem missing_field_not_reported_on_nil_pointer :
    Set docA1 "x.y".toList nilIntPtr = (docA1, .panic .reflectPanic) ∧
    (Set docA1 "x.y".toList nilIntPtr).2 ≠ .err .ErrFieldNotExists := by
  refine ⟨rfl, by decide⟩

/-- C7 fails as stated: on `{"a":[1]}`, where `Get("a")` returns an array,
`Append("a", (*int)(nil))` panics in the normalizer and does not succeed. -/
theorem append_fails_on_nil_pointer :
    Get docA1list "a".toList = .ok (.slice [.int .int 1]) ∧
    Append docA1list "a".toList nilIntPtr = (docA1list, .panic .reflectPanic) ∧
    (Append docA1list "a".toList nilIntPtr).2 ≠ .ok () := by
  refine ⟨rfl, rfl, by decide⟩

/-- C8 fails as stated: the normalizer runs before the test on the empty path;
with the value `(*int)(nil)`, `Append("", x)` panics on the array-rooted
`[1,2]`, where the claim has it succeed, and on the object-rooted `{"a":1}`,
where the claim has it return `ErrNotAnArray`. -/
theorem append_empty_path_fails_on_nil_pointer :
    Append docRoot12 [] nilIntPtr = (docRoot12, .panic .reflectPanic) ∧
    (Append docRoot12 [] nilIntPtr).2 ≠ .ok () ∧
    Append docA1 [] nilIntPtr = (docA1, .panic .reflectPanic) ∧
    (Append docA1 [] nilIntPtr).2 ≠ .err .ErrNotAnArray := by
  refine ⟨rfl, by decide, rfl, by decide⟩

end EasyJSONGo
